import Mathlib

/-!
# The strcpy fuzz harness (`libc/fuzzing/string/strcpy_fuzz.cpp`)

A shallow embedding of `LLVMFuzzerTestOneInput` over a block-structured heap,
with the library calls it makes recorded in an event trace, followed by the
properties of the harness.
-/

namespace StrcpyFuzz

/-! ## Memory model -/

/-- One `char` / `uint8_t` cell. -/
abbrev Byte := Fin 256

/-- A pointer to the first byte of a heap block (the harness never forms an
interior pointer: every access is written `p[i]`). -/
abbrev Ptr := Nat

/-- The heap: block `p` is `some bytes` while allocated, `none` once freed. -/
structure Mem where
  blocks : List (Option (List Byte))
deriving DecidableEq, Repr

/-- Content of the live block `p`; `none` for a freed or never allocated one. -/
def Mem.block (m : Mem) (p : Ptr) : Option (List Byte) :=
  match m.blocks[p]? with
  | some (some b) => some b
  | _ => none

/-- Read of `p[i]`; `none` when the access is outside a live block. -/
def Mem.load (m : Mem) (p : Ptr) (i : Nat) : Option Byte :=
  match m.block p with
  | some b => b[i]?
  | none => none

/-- Write of `p[i] = v`; `none` when the access is outside a live block. -/
def Mem.store (m : Mem) (p : Ptr) (i : Nat) (v : Byte) : Option Mem :=
  match m.block p with
  | some b => if i < b.length then some ⟨m.blocks.set p (some (b.set i v))⟩ else none
  | none => none

/-- A library call made by the harness. The `strcpy` event also keeps the heap
as it was when the call was made, so that the arguments handed to the
primitive can be inspected afterwards. -/
inductive Event where
  | malloc (n : Nat) (p : Ptr)
  | memcpy (dst src : Ptr) (n : Nat)
  | strcpy (dest src : Ptr) (pre : Mem)
  | strcmp (l r : Ptr)
  | abort
  | free (p : Ptr)
deriving DecidableEq, Repr

/-- Machine state threaded through the harness: the heap and the calls so far. -/
structure State where
  mem : Mem
  trace : List Event
deriving DecidableEq, Repr

/-- How a computation ends: normally with a value, by `abort()`, or by an
access the C standard leaves undefined (out of bounds, freed block). -/
inductive Res (α : Type) where
  | val (a : α) (s : State)
  | abort (s : State)
  | fault (s : State)
deriving DecidableEq, Repr

/-- The state in which a computation ended. -/
def Res.state {α : Type} : Res α → State
  | .val _ s => s
  | .abort s => s
  | .fault s => s

/-- Stateful computations that may abort or fault. -/
def Prog (α : Type) : Type := State → Res α

/-- Sequencing: an abort or a fault ends the computation. -/
def Prog.bind {α β : Type} (x : Prog α) (f : α → Prog β) : Prog β := fun s =>
  match x s with
  | .val a s1 => f a s1
  | .abort s1 => .abort s1
  | .fault s1 => .fault s1

instance : Monad Prog where
  pure a := fun s => .val a s
  bind := Prog.bind

/-! ## The C library calls the harness makes -/

/-- Read `p[i]`. -/
def load (p : Ptr) (i : Nat) : Prog Byte := fun s =>
  match s.mem.load p i with
  | some b => .val b s
  | none => .fault s

/-- Write `p[i] = v`. -/
def store (p : Ptr) (i : Nat) (v : Byte) : Prog Unit := fun s =>
  match s.mem.store p i v with
  | some m => .val () { s with mem := m }
  | none => .fault s

/-- The call `malloc(n)`: a fresh block of `n` bytes whose content is whatever
the allocator left there, `uninit p i` for byte `i` of block `p`. The
allocation succeeds: memory exhaustion is not part of the model. -/
def malloc (uninit : Ptr → Nat → Byte) (n : Nat) : Prog Ptr := fun s =>
  let p := s.mem.blocks.length
  .val p { mem := ⟨s.mem.blocks ++ [some ((List.range n).map (uninit p))]⟩,
           trace := s.trace ++ [.malloc n p] }

/-- The call `free(p)`: the block dies; freeing a block that is not live faults. -/
def free (p : Ptr) : Prog Unit := fun s =>
  match s.mem.block p with
  | some _ => .val () { mem := ⟨s.mem.blocks.set p none⟩, trace := s.trace ++ [.free p] }
  | none => .fault s

/-- The call `memcpy(dst, src, n)` between two distinct live blocks: the first
`n` bytes of `dst` become the first `n` bytes of `src`. -/
def memcpy (dst src : Ptr) (n : Nat) : Prog Unit := fun s =>
  match s.mem.block dst, s.mem.block src with
  | some d, some b =>
    if n ≤ d.length ∧ n ≤ b.length ∧ dst ≠ src then
      .val () { mem := ⟨s.mem.blocks.set dst (some (b.take n ++ d.drop n))⟩,
                trace := s.trace ++ [.memcpy dst src n] }
    else .fault s
  | _, _ => .fault s

/-- The loop of `strcmp` over the bytes from the two pointers on: advance while
the bytes agree and are not the terminator, then return the difference of the
two bytes (as `unsigned char`). Running off the end of either block is `none`. -/
def strcmpBytes : List Byte → List Byte → Option Int
  | x :: xs, y :: ys =>
    if x = y ∧ x ≠ 0 then strcmpBytes xs ys else some ((x.val : Int) - (y.val : Int))
  | _, _ => none

/-- The call `strcmp(l, r)`. -/
def strcmp (l r : Ptr) : Prog Int := fun s =>
  match s.mem.block l, s.mem.block r with
  | some a, some b =>
    match strcmpBytes a b with
    | some v => .val v { s with trace := s.trace ++ [.strcmp l r] }
    | none => .fault s
  | _, _ => .fault s

/-- The call `abort()`. -/
def abort {α : Type} : Prog α := fun s =>
  .abort { s with trace := s.trace ++ [.abort] }

/-- The call `__llvm_libc::strcpy(dest, src)` of the primitive under test, a
transformer of the heap; the pointer it returns is discarded by the harness. -/
def callStrcpy (strcpy : Mem → Ptr → Ptr → Mem) (dest src : Ptr) : Prog Unit := fun s =>
  .val () { mem := strcpy s.mem dest src, trace := s.trace ++ [.strcpy dest src s.mem] }

/-- The loop `for (size_t i = start; i < start + count; i++) body(i)`. -/
def forLoop (body : Nat → Prog Unit) : (count : Nat) → (start : Nat) → Prog Unit
  | 0, _ => pure ()
  | k + 1, i => do
    body i
    forLoop body k (i + 1)

/-! ## The harness -/

/-- The entry point `LLVMFuzzerTestOneInput(data, size)`, with the primitive
under test and the content of fresh allocations as parameters. `size` is a
natural number: no object is as large as `SIZE_MAX`, so `size + 1` does not
wrap. -/
def LLVMFuzzerTestOneInput (strcpy : Mem → Ptr → Ptr → Mem) (uninit : Ptr → Nat → Byte)
    (data : Ptr) (size : Nat) : Prog Int :=
  if size = 0 then
    pure 0
  else do
    -- strcpy can only accept null-terminated strings.
    let src ← malloc uninit (size + 1)
    memcpy src data size
    forLoop (fun i => do
      -- replace early null-termination with valid character.
      if (← load src i) = 0 then
        store src i 0x61
      else
        pure ()) size 0
    store src size 0
    let dest ← malloc uninit (size + 1)
    callStrcpy strcpy dest src
    if (← strcmp dest src) ≠ 0 then
      abort
    else do
      free src
      free dest
      pure 0

/-- The rest of the body of `LLVMFuzzerTestOneInput` once the primitive has
returned: the `strcmp` check, then the two `free` calls and `return 0`. -/
def checkAndRelease (dest src : Ptr) : Prog Int := do
  if (← strcmp dest src) ≠ 0 then
    abort
  else do
    free src
    free dest
    pure 0

/-- What one pass of the loop body leaves in a cell that held `b`. -/
def replaceNul (b : Byte) : Byte := if b = 0 then 0x61 else b

/-- The heap at the moment the primitive is called, for an input `raw` found in
the heap `m`: the two blocks of the harness follow the blocks of `m`. -/
def memAtCall (uninit : Ptr → Nat → Byte) (m : Mem) (raw : List Byte) : Mem :=
  ⟨m.blocks ++ [some (raw.map replaceNul ++ [0]),
    some ((List.range (raw.length + 1)).map (uninit (m.blocks.length + 1)))]⟩

/-! ## Vocabulary of the properties -/

/-- The caller's buffer: `data` points to a live block whose first `raw.length`
bytes are `raw`. -/
def HoldsInput (m : Mem) (data : Ptr) (raw : List Byte) : Prop :=
  (m.block data).map (List.take raw.length) = some raw

instance (m : Mem) (data : Ptr) (raw : List Byte) : Decidable (HoldsInput m data raw) :=
  inferInstanceAs (Decidable (_ = _))

/-- The calls of the primitive in a trace: destination, source, heap at the call. -/
def strcpyCalls : List Event → List (Ptr × Ptr × Mem)
  | [] => []
  | .strcpy dest src pre :: t => (dest, src, pre) :: strcpyCalls t
  | _ :: t => strcpyCalls t

/-- The source strings handed to the primitive by the calls of a trace. -/
def sourcesPassed (t : List Event) : List (Option (List Byte)) :=
  (strcpyCalls t).map (fun c => c.2.2.block c.2.1)

/-- Length of the string in a buffer: the index of its first zero byte. -/
def strlen (b : List Byte) : Nat := b.indexOf 0

/-- The normaliser as the specification words it (§4.2): every zero byte of
`raw` becomes the byte of `'a'`, every other byte is kept, one zero byte is
appended. -/
def normalizeSpec (raw : List Byte) : List Byte :=
  raw.map (fun b => if b = 0 then 0x61 else b) ++ [0]

/-- Modelled from the spec: the precondition of the copy primitive `copy(dest, src)`
(§4.1), whose implementation `src/string/strcpy.h` is outside the source tree.
The source holds exactly one zero byte, its last; the destination has room for
the string and its terminator; the two do not overlap. -/
def StrcpyPre (m : Mem) (dest src : Ptr) : Prop :=
  ∃ body d, m.block src = some (body ++ [0]) ∧ (0 : Byte) ∉ body ∧
    m.block dest = some d ∧ body.length + 1 ≤ d.length ∧ dest ≠ src

/-- Modelled from the spec: the postcondition of the copy primitive (§4.1). After
the call `dest[i] == src[i]` for every index of the source through its
terminator. -/
def CopiesString (strcpy : Mem → Ptr → Ptr → Mem) : Prop :=
  ∀ m dest src, StrcpyPre m dest src → ∀ b, m.block src = some b →
    ∀ i, i < b.length → (strcpy m dest src).load dest i = b[i]?

/-- Modelled from the spec: the side effect clause of the copy primitive (§4.1).
Nothing but the destination is written: every other block is as it was. -/
def WritesOnlyDest (strcpy : Mem → Ptr → Ptr → Mem) : Prop :=
  ∀ m dest src, StrcpyPre m dest src → ∀ p, p ≠ dest →
    (strcpy m dest src).block p = m.block p

/-- Modelled from the spec: the contract of the copy primitive (§4.1), postcondition
and side effect, for calls that meet the precondition. -/
def StrcpyContract (strcpy : Mem → Ptr → Ptr → Mem) : Prop :=
  CopiesString strcpy ∧ WritesOnlyDest strcpy

/-- Modelled from the spec: a copy primitive as §4.1 describes it. The bytes of the
source up to and including its first zero byte replace the first bytes of the
destination. -/
def refStrcpy (m : Mem) (dest src : Ptr) : Mem :=
  match m.block src, m.block dest with
  | some b, some d =>
    ⟨m.blocks.set dest (some (b.take (strlen b + 1) ++ d.drop (strlen b + 1)))⟩
  | _, _ => m

/-- Modelled from the spec: the defective primitive of §8, which stops after `k`
bytes. The first `k` bytes of the source replace the first `k` bytes of the
destination and nothing else is written. -/
def truncStrcpy (k : Nat) (m : Mem) (dest src : Ptr) : Mem :=
  match m.block src, m.block dest with
  | some b, some d => ⟨m.blocks.set dest (some (b.take k ++ d.drop k))⟩
  | _, _ => m

/-- Modelled from the spec: what it is for a primitive to be defective as in §8,
copying only the first `k` bytes of the source and writing nothing from index
`k` on (nor outside the destination). -/
def CopiesOnlyFirst (k : Nat) (strcpy : Mem → Ptr → Ptr → Mem) : Prop :=
  ∀ m dest src b d, m.block src = some b → m.block dest = some d → dest ≠ src →
    k ≤ b.length → k ≤ d.length →
    (strcpy m dest src).block dest = some (b.take k ++ d.drop k) ∧
    ∀ p, p ≠ dest → (strcpy m dest src).block p = m.block p

/-- The status with which an invocation ends, without the final state. -/
inductive Outcome where
  | returned (status : Int)
  | aborted
  | undefined
deriving DecidableEq, Repr

/-- Outcome of a finished invocation. -/
def Res.outcome : Res Int → Outcome
  | .val v _ => .returned v
  | .abort _ => .aborted
  | .fault _ => .undefined

/-- The invocation on `(data, size)` from the state `s` makes one call of the
primitive, and the source block of that call holds `b`. -/
def BuildsSource (strcpy : Mem → Ptr → Ptr → Mem) (uninit : Ptr → Nat → Byte) (data : Ptr)
    (size : Nat) (s : State) (b : List Byte) : Prop :=
  ∃ dest src pre,
    strcpyCalls (LLVMFuzzerTestOneInput strcpy uninit data size s).state.trace =
      strcpyCalls s.trace ++ [(dest, src, pre)] ∧
    pre.block src = some b

/-- The index at which the loop of `strcmp` stops, that is the last index it
inspects in either buffer; `none` when the loop runs off the end of a block
(the same recursion as `strcmpBytes`, counting the steps). -/
def strcmpStop : List Byte → List Byte → Option Nat
  | x :: xs, y :: ys =>
    if x = y ∧ x ≠ 0 then (strcmpStop xs ys).map (· + 1) else some 0
  | _, _ => none

/-- A defective primitive that copies in the wrong direction: the bytes of the
destination overwrite the source block, terminator included. -/
def swappedStrcpy (m : Mem) (dest src : Ptr) : Mem :=
  match m.block src, m.block dest with
  | some b, some d => ⟨m.blocks.set src (some (d.take b.length ++ b.drop d.length))⟩
  | _, _ => m

/-- The primitive, correct or not in the bytes it writes, stays inside the
destination buffer: on a call that meets the precondition it leaves the source
block as it was and the destination a live block of the same size. -/
def KeepsBuffers (strcpy : Mem → Ptr → Ptr → Mem) : Prop :=
  ∀ m dest src, StrcpyPre m dest src → ∀ b d, m.block src = some b → m.block dest = some d →
    (strcpy m dest src).block src = some b ∧
    ∃ d2, (strcpy m dest src).block dest = some d2 ∧ d2.length = d.length

/-! ## Sample inputs -/

/-- A heap as the fuzzing engine may leave it: three input buffers, holding
the bytes `41 00 42`, a single zero byte, and `41 42 43` (the text ABC). -/
def exHeap : Mem := ⟨[some [0x41, 0x00, 0x42], some [0x00], some [0x41, 0x42, 0x43]]⟩

/-- The state before an invocation on `exHeap`, no call made yet. -/
def exState : State := ⟨exHeap, []⟩

/-- Fresh allocations filled with the byte `0x07`. -/
def exUninit : Ptr → Nat → Byte := fun _ _ => 0x07

/-- A heap holding the input buffer `41 42`. -/
def staleHeap : Mem := ⟨[some [0x41, 0x42]]⟩

/-- Fresh allocations whose byte 1 is `42` and whose other bytes are zero, as a
block that held a string with `B` at index 1 may be handed out again. -/
def staleUninit : Ptr → Nat → Byte := fun _ i => if i = 1 then 0x42 else 0x00

/-! ## Memory and control lemmas -/

theorem Mem.block_eq_some_iff (m : Mem) (p : Ptr) (b : List Byte) :
    m.block p = some b ↔ m.blocks[p]? = some (some b) := by
  unfold Mem.block
  split
  · next b' h => simp [h]
  · next h =>
    constructor
    · intro h'; cases h'
    · intro h'; exact absurd h' (h b)

theorem Mem.block_lt (m : Mem) (p : Ptr) (b : List Byte) (h : m.block p = some b) :
    p < m.blocks.length := by
  rw [Mem.block_eq_some_iff] at h
  exact (List.getElem?_eq_some.mp h).1

theorem Mem.block_congr (m m' : Mem) (p : Ptr) (h : m.blocks[p]? = m'.blocks[p]?) :
    m.block p = m'.block p := by
  unfold Mem.block; rw [h]

theorem Mem.block_append_left (B T : List (Option (List Byte))) (p : Ptr) (h : p < B.length) :
    (Mem.mk (B ++ T)).block p = (Mem.mk B).block p :=
  Mem.block_congr _ _ _ (List.getElem?_append_left h)

theorem Mem.block_append_length (B T : List (Option (List Byte))) (x : Option (List Byte)) :
    (Mem.mk (B ++ x :: T)).block B.length = x := by
  have h : (B ++ x :: T)[B.length]? = some x := by
    rw [List.getElem?_append_right (le_refl _)]
    simp
  unfold Mem.block
  simp only [h]
  cases x <;> rfl

theorem Mem.block_set_ne (B : List (Option (List Byte))) (p q : Ptr) (x : Option (List Byte))
    (h : p ≠ q) : (Mem.mk (B.set p x)).block q = (Mem.mk B).block q :=
  Mem.block_congr _ _ _ (List.getElem?_set_ne h)

theorem set_append_length {α : Type} (B T : List α) (x y : α) :
    (B ++ x :: T).set B.length y = B ++ y :: T := by
  rw [List.set_append_right _ _ (le_refl _)]
  simp

theorem load_append_length (B : List (Option (List Byte))) (b : List Byte) (tr : List Event)
    (i : Nat) (x : Byte) (h : b[i]? = some x) :
    load B.length i ⟨⟨B ++ [some b]⟩, tr⟩ = .val x ⟨⟨B ++ [some b]⟩, tr⟩ := by
  simp only [load, Mem.load, Mem.block_append_length, h]

theorem store_append_length (B : List (Option (List Byte))) (b : List Byte) (tr : List Event)
    (i : Nat) (v : Byte) (h : i < b.length) :
    store B.length i v ⟨⟨B ++ [some b]⟩, tr⟩ = .val () ⟨⟨B ++ [some (b.set i v)]⟩, tr⟩ := by
  simp only [store, Mem.store, Mem.block_append_length, h, if_true, set_append_length]

theorem bind_val {α β : Type} (x : Prog α) (f : α → Prog β) (s s1 : State) (a : α)
    (h : x s = .val a s1) : (x >>= f) s = f a s1 := by
  simp only [bind, Prog.bind, h]

theorem forLoop_succ (body : Nat → Prog Unit) (k i : Nat) (s s1 : State)
    (h : body i s = .val () s1) :
    forLoop body (k + 1) i s = forLoop body k (i + 1) s1 := by
  rw [forLoop, bind_val _ _ _ _ _ h]

theorem replace_step (B : List (Option (List Byte))) (tr : List Event) (pre rest : List Byte)
    (x : Byte) :
    (do
      if (← load B.length pre.length) = 0 then
        store B.length pre.length 0x61
      else
        pure ()) ⟨⟨B ++ [some (pre ++ x :: rest)]⟩, tr⟩
      = .val () ⟨⟨B ++ [some (pre ++ replaceNul x :: rest)]⟩, tr⟩ := by
  have hx : (pre ++ x :: rest)[pre.length]? = some x := by
    rw [List.getElem?_append_right (le_refl _)]; simp
  have hlt : pre.length < (pre ++ x :: rest).length := by
    simp
  simp only [bind, Prog.bind, load_append_length B _ tr _ x hx]
  by_cases h0 : x = 0
  · simp only [h0, if_true, store_append_length B _ tr _ _ (h0 ▸ hlt), set_append_length,
      replaceNul]
  · simp only [h0, if_false, replaceNul]
    rfl

theorem replace_loop (B : List (Option (List Byte))) (tr : List Event) (mid post : List Byte) :
    ∀ pre : List Byte,
    forLoop (fun i => do
      if (← load B.length i) = 0 then
        store B.length i 0x61
      else
        pure ()) mid.length pre.length ⟨⟨B ++ [some (pre ++ (mid ++ post))]⟩, tr⟩
      = .val () ⟨⟨B ++ [some (pre ++ (mid.map replaceNul ++ post))]⟩, tr⟩ := by
  induction mid with
  | nil => intro pre; rfl
  | cons x xs ih =>
    intro pre
    have ihx := ih (pre ++ [replaceNul x])
    simp only [List.length_append, List.length_singleton, List.append_assoc,
      List.singleton_append] at ihx
    rw [List.length_cons, forLoop_succ _ _ _ _ _ (replace_step B tr pre (xs ++ post) x)]
    exact ihx

theorem drop_range_map (g : Nat → Byte) (n : Nat) :
    ((List.range (n + 1)).map g).drop n = [g n] := by
  rw [List.range_succ, List.map_append, List.drop_left' (by simp)]
  rfl

theorem memcpy_append_length (B : List (Option (List Byte))) (tr : List Event) (d blk : List Byte)
    (data n : Nat) (hd : n ≤ d.length) (hb : n ≤ blk.length)
    (hdata : (Mem.mk B).block data = some blk) :
    memcpy B.length data n ⟨⟨B ++ [some d]⟩, tr⟩
      = .val () ⟨⟨B ++ [some (blk.take n ++ d.drop n)]⟩, tr ++ [.memcpy B.length data n]⟩ := by
  have hlt : data < B.length := Mem.block_lt ⟨B⟩ data blk hdata
  have hne : B.length ≠ data := by omega
  simp only [memcpy, Mem.block_append_length, Mem.block_append_left B _ data hlt, hdata, hd, hb,
    hne, ne_eq, not_false_eq_true, and_self, if_true, set_append_length]

theorem run_nonempty (strcpy : Mem → Ptr → Ptr → Mem) (uninit : Ptr → Nat → Byte) (s : State)
    (data : Ptr) (raw : List Byte) (hne : raw ≠ []) (hin : HoldsInput s.mem data raw) :
    LLVMFuzzerTestOneInput strcpy uninit data raw.length s =
      checkAndRelease (s.mem.blocks.length + 1) s.mem.blocks.length
        ⟨strcpy (memAtCall uninit s.mem raw) (s.mem.blocks.length + 1) s.mem.blocks.length,
         s.trace ++ [.malloc (raw.length + 1) s.mem.blocks.length,
           .memcpy s.mem.blocks.length data raw.length,
           .malloc (raw.length + 1) (s.mem.blocks.length + 1),
           .strcpy (s.mem.blocks.length + 1) s.mem.blocks.length (memAtCall uninit s.mem raw)]⟩ := by
  obtain ⟨⟨B⟩, tr⟩ := s
  simp only at hin ⊢
  have hlen : raw.length ≠ 0 := by
    intro h; exact hne (List.length_eq_zero.mp h)
  obtain ⟨blk, hblk, htake⟩ : ∃ blk, (Mem.mk B).block data = some blk ∧ blk.take raw.length = raw := by
    unfold HoldsInput at hin
    cases h : (Mem.mk B).block data with
    | none => rw [h] at hin; cases hin
    | some blk => rw [h] at hin; exact ⟨blk, rfl, Option.some.inj hin⟩
  have hblen : raw.length ≤ blk.length := by
    have := congrArg List.length htake
    rw [List.length_take] at this
    omega
  unfold LLVMFuzzerTestOneInput
  rw [if_neg hlen]
  have h1 : malloc uninit (raw.length + 1) ⟨⟨B⟩, tr⟩ = .val B.length
      ⟨⟨B ++ [some ((List.range (raw.length + 1)).map (uninit B.length))]⟩,
        tr ++ [.malloc (raw.length + 1) B.length]⟩ := rfl
  have h2 := memcpy_append_length B (tr ++ [.malloc (raw.length + 1) B.length])
    ((List.range (raw.length + 1)).map (uninit B.length)) blk data raw.length (by simp) hblen hblk
  rw [htake, drop_range_map] at h2
  have h3 := replace_loop B (tr ++ [.malloc (raw.length + 1) B.length,
    .memcpy B.length data raw.length]) raw [uninit B.length raw.length] []
  simp only [List.nil_append, List.length_nil] at h3
  have h4 := store_append_length B (raw.map replaceNul ++ [uninit B.length raw.length])
    (tr ++ [.malloc (raw.length + 1) B.length, .memcpy B.length data raw.length]) raw.length 0
    (by simp)
  have hset : (raw.map replaceNul ++ [uninit B.length raw.length]).set raw.length 0
      = raw.map replaceNul ++ [0] := by
    rw [List.set_append_right _ _ (by simp)]
    simp
  rw [hset] at h4
  rw [bind_val _ _ _ _ _ h1, bind_val _ _ _ _ _ (by simpa using h2),
    bind_val _ _ _ _ _ h3, bind_val _ _ _ _ _ h4]
  simp only [bind, Prog.bind, malloc, callStrcpy, checkAndRelease, memAtCall, List.length_append,
    List.length_singleton, List.append_assoc, List.singleton_append, List.cons_append,
    List.nil_append]

theorem strcmpBytes_cstring (body : List Byte) (h0 : (0 : Byte) ∉ body) :
    ∀ d : List Byte, body.length < d.length →
      ∃ v, strcmpBytes d (body ++ [0]) = some v ∧
        (v = 0 ↔ d.take (body.length + 1) = body ++ [0]) := by
  induction body with
  | nil =>
    intro d hd
    cases d with
    | nil => simp at hd
    | cons x xs =>
      refine ⟨(x.val : Int) - ((0 : Byte).val : Int), ?_, ?_⟩
      · simp [strcmpBytes]
      · simp [Fin.ext_iff]
  | cons y ys ih =>
    intro d hd
    have hy : y ≠ 0 := fun h => h0 (h ▸ List.mem_cons_self _ _)
    have h0' : (0 : Byte) ∉ ys := fun h => h0 (List.mem_cons_of_mem _ h)
    cases d with
    | nil => simp at hd
    | cons x xs =>
      by_cases hxy : x = y
      · subst hxy
        obtain ⟨v, hv, hiff⟩ := ih h0' xs (by simpa using hd)
        refine ⟨v, ?_, ?_⟩
        · simp [strcmpBytes, hy, hv]
        · simp [hiff]
      · refine ⟨(x.val : Int) - (y.val : Int), ?_, ?_⟩
        · simp [strcmpBytes, hxy]
        · have : (x.val : Int) - (y.val : Int) ≠ 0 := by
            intro h
            apply hxy
            apply Fin.ext
            omega
          simp [this, hxy]

theorem check_pass (m : Mem) (tr : List Event) (dest src : Ptr) (d a : List Byte)
    (hd : m.block dest = some d) (ha : m.block src = some a) (hne : dest ≠ src)
    (hcmp : strcmpBytes d a = some 0) :
    checkAndRelease dest src ⟨m, tr⟩ =
      .val 0 ⟨⟨(m.blocks.set src none).set dest none⟩,
        tr ++ [.strcmp dest src, .free src, .free dest]⟩ := by
  have hd' : (Mem.mk (m.blocks.set src none)).block dest = some d := by
    rw [Mem.block_set_ne _ _ _ _ (Ne.symm hne)]; exact hd
  simp only [checkAndRelease, bind, Prog.bind, strcmp, hd, ha, hcmp, ne_eq, not_true_eq_false,
    if_false, free, hd', pure, List.append_assoc, List.singleton_append, List.cons_append,
    List.nil_append]

theorem check_fail (m : Mem) (tr : List Event) (dest src : Ptr) (d a : List Byte) (v : Int)
    (hd : m.block dest = some d) (ha : m.block src = some a)
    (hcmp : strcmpBytes d a = some v) (hv : v ≠ 0) :
    checkAndRelease dest src ⟨m, tr⟩ = .abort ⟨m, tr ++ [.strcmp dest src, .abort]⟩ := by
  simp only [checkAndRelease, bind, Prog.bind, strcmp, hd, ha, hcmp, ne_eq, hv, not_false_eq_true,
    if_true, abort, List.append_assoc, List.singleton_append]

theorem strcpyCalls_append (a b : List Event) :
    strcpyCalls (a ++ b) = strcpyCalls a ++ strcpyCalls b := by
  induction a with
  | nil => rfl
  | cons e t ih => cases e <;> simp [strcpyCalls, ih]

theorem replaceNul_ne_zero (b : Byte) : replaceNul b ≠ 0 := by
  unfold replaceNul
  split
  · decide
  · assumption

theorem zero_not_mem_map_replaceNul (raw : List Byte) : (0 : Byte) ∉ raw.map replaceNul := by
  intro h
  obtain ⟨b, _, hb⟩ := List.mem_map.mp h
  exact replaceNul_ne_zero b hb

theorem map_replaceNul_eq (raw : List Byte) : raw.map replaceNul ++ [0] = normalizeSpec raw := rfl

theorem memAtCall_src (uninit : Ptr → Nat → Byte) (m : Mem) (raw : List Byte) :
    (memAtCall uninit m raw).block m.blocks.length = some (raw.map replaceNul ++ [0]) :=
  Mem.block_append_length _ _ _

theorem memAtCall_dest (uninit : Ptr → Nat → Byte) (m : Mem) (raw : List Byte) :
    (memAtCall uninit m raw).block (m.blocks.length + 1)
      = some ((List.range (raw.length + 1)).map (uninit (m.blocks.length + 1))) := by
  have h := Mem.block_append_length (m.blocks ++ [some (raw.map replaceNul ++ [0])]) []
    (some ((List.range (raw.length + 1)).map (uninit (m.blocks.length + 1))))
  simpa [memAtCall] using h

theorem memAtCall_old (uninit : Ptr → Nat → Byte) (m : Mem) (raw : List Byte) (p : Ptr)
    (hp : p < m.blocks.length) : (memAtCall uninit m raw).block p = m.block p :=
  Mem.block_append_left _ _ _ hp

theorem memAtCall_pre (uninit : Ptr → Nat → Byte) (m : Mem) (raw : List Byte) :
    StrcpyPre (memAtCall uninit m raw) (m.blocks.length + 1) m.blocks.length :=
  ⟨raw.map replaceNul, _, memAtCall_src uninit m raw, zero_not_mem_map_replaceNul raw,
    memAtCall_dest uninit m raw, by simp, Nat.succ_ne_self _⟩

theorem take_eq_iff_getElem? (a b : List Byte) :
    a.take b.length = b ↔ ∀ i, i < b.length → a[i]? = b[i]? := by
  constructor
  · intro h i hi
    rw [← List.getElem?_take_of_lt hi, h]
  · intro h
    apply List.ext_getElem?
    intro i
    by_cases hi : i < b.length
    · rw [List.getElem?_take_of_lt hi, h i hi]
    · rw [List.getElem?_eq_none (by simp; omega), List.getElem?_eq_none (by omega)]

theorem check_outcome (m : Mem) (tr : List Event) (dest src : Ptr) (d body : List Byte)
    (hd : m.block dest = some d) (ha : m.block src = some (body ++ [0]))
    (h0 : (0 : Byte) ∉ body) (hlen : body.length < d.length) (hne : dest ≠ src) :
    (d.take (body.length + 1) = body ++ [0] →
      checkAndRelease dest src ⟨m, tr⟩ =
        .val 0 ⟨⟨(m.blocks.set src none).set dest none⟩,
          tr ++ [.strcmp dest src, .free src, .free dest]⟩) ∧
    (d.take (body.length + 1) ≠ body ++ [0] →
      checkAndRelease dest src ⟨m, tr⟩ = .abort ⟨m, tr ++ [.strcmp dest src, .abort]⟩) := by
  obtain ⟨v, hv, hiff⟩ := strcmpBytes_cstring body h0 d hlen
  constructor
  · intro h
    rw [hiff.mpr h] at hv
    exact check_pass m tr dest src d _ hd ha hne hv
  · intro h
    exact check_fail m tr dest src d _ v hd ha hv (fun h' => h (hiff.mp h'))

theorem Mem.block_set_self (B : List (Option (List Byte))) (p : Ptr) (x : Option (List Byte))
    (h : p < B.length) : (Mem.mk (B.set p x)).block p = x := by
  have h' : (B.set p x)[p]? = some x := List.getElem?_set_self h
  unfold Mem.block
  simp only [h']
  cases x <;> rfl

theorem strlen_cstring (body : List Byte) (h0 : (0 : Byte) ∉ body) :
    strlen (body ++ [0]) = body.length := by
  unfold strlen
  rw [List.indexOf_append_of_not_mem h0, List.indexOf_cons_self]
  rfl

theorem refStrcpy_block_dest (m : Mem) (dest src : Ptr) (body d : List Byte)
    (hs : m.block src = some (body ++ [0])) (h0 : (0 : Byte) ∉ body)
    (hd : m.block dest = some d) :
    (refStrcpy m dest src).block dest = some (body ++ [0] ++ d.drop (body.length + 1)) := by
  have hlt := Mem.block_lt m dest d hd
  simp only [refStrcpy, hs, hd, strlen_cstring body h0]
  rw [Mem.block_set_self _ _ _ hlt, List.take_of_length_le (by simp)]

theorem refStrcpy_contract : StrcpyContract refStrcpy := by
  constructor
  · rintro m dest src ⟨body, d, hs, h0, hd, -, -⟩ b hb i hi
    rw [hs] at hb
    cases hb
    simp only [Mem.load, refStrcpy_block_dest m dest src body d hs h0 hd]
    exact List.getElem?_append_left hi
  · rintro m dest src ⟨body, d, hs, h0, hd, -, -⟩ p hp
    simp only [refStrcpy, hs, hd]
    exact Mem.block_set_ne _ _ _ _ (Ne.symm hp)

theorem post_contract (strcpy : Mem → Ptr → Ptr → Mem) (uninit : Ptr → Nat → Byte) (m : Mem)
    (raw : List Byte) (hc : StrcpyContract strcpy) :
    (strcpy (memAtCall uninit m raw) (m.blocks.length + 1) m.blocks.length).block m.blocks.length
      = some (raw.map replaceNul ++ [0]) ∧
    ∃ d, (strcpy (memAtCall uninit m raw) (m.blocks.length + 1) m.blocks.length).block
        (m.blocks.length + 1) = some d ∧
      d.take (raw.length + 1) = raw.map replaceNul ++ [0] ∧ raw.length < d.length := by
  have hpre := memAtCall_pre uninit m raw
  constructor
  · rw [hc.2 _ _ _ hpre m.blocks.length (Nat.succ_ne_self _).symm, memAtCall_src]
  · have hload := hc.1 _ _ _ hpre _ (memAtCall_src uninit m raw)
    cases hb : (strcpy (memAtCall uninit m raw) (m.blocks.length + 1) m.blocks.length).block
        (m.blocks.length + 1) with
    | none =>
      have h := hload 0 (by simp)
      simp [Mem.load, hb] at h
    | some d =>
      simp only [Mem.load, hb] at hload
      refine ⟨d, rfl, ?_, ?_⟩
      · have := (take_eq_iff_getElem? d (raw.map replaceNul ++ [0])).mpr hload
        simpa using this
      · have h := hload raw.length (by simp)
        rw [List.getElem?_append_right (by simp)] at h
        simp at h
        exact (List.getElem?_eq_some.mp h).1

theorem checkAndRelease_cases (dest src : Ptr) (st : State) :
    checkAndRelease dest src st = .fault st ∨
    checkAndRelease dest src st = .abort ⟨st.mem, st.trace ++ [.strcmp dest src, .abort]⟩ ∨
    checkAndRelease dest src st =
      .fault ⟨⟨st.mem.blocks.set src none⟩, st.trace ++ [.strcmp dest src, .free src]⟩ ∨
    checkAndRelease dest src st =
      .val 0 ⟨⟨(st.mem.blocks.set src none).set dest none⟩,
        st.trace ++ [.strcmp dest src, .free src, .free dest]⟩ := by
  obtain ⟨m, tr⟩ := st
  cases hd : m.block dest with
  | none => left; simp only [checkAndRelease, bind, Prog.bind, strcmp, hd]
  | some d =>
    cases hs : m.block src with
    | none => left; simp only [checkAndRelease, bind, Prog.bind, strcmp, hd, hs]
    | some a =>
      cases hcmp : strcmpBytes d a with
      | none => left; simp only [checkAndRelease, bind, Prog.bind, strcmp, hd, hs, hcmp]
      | some v =>
        by_cases hv : v = 0
        · subst hv
          right; right
          cases hd' : (Mem.mk (m.blocks.set src none)).block dest with
          | none =>
            left
            simp only [checkAndRelease, bind, Prog.bind, strcmp, hd, hs, hcmp, ne_eq,
              not_true_eq_false, if_false, free, hd', List.append_assoc, List.singleton_append]
          | some d' =>
            right
            simp only [checkAndRelease, bind, Prog.bind, strcmp, hd, hs, hcmp, ne_eq,
              not_true_eq_false, if_false, free, hd', pure, List.append_assoc,
              List.singleton_append, List.cons_append, List.nil_append]
        · right; left
          exact check_fail m tr dest src d a v hd hs hcmp hv

theorem checkAndRelease_calls (dest src : Ptr) (st : State) :
    strcpyCalls (checkAndRelease dest src st).state.trace = strcpyCalls st.trace := by
  rcases checkAndRelease_cases dest src st with h | h | h | h <;>
    simp [h, Res.state, strcpyCalls_append, strcpyCalls]

theorem checkAndRelease_block (dest src p : Ptr) (st : State) (hd : p ≠ dest) (hs : p ≠ src) :
    (checkAndRelease dest src st).state.mem.block p = st.mem.block p := by
  rcases checkAndRelease_cases dest src st with h | h | h | h <;>
    simp only [h, Res.state, Mem.block_set_ne _ _ _ _ (Ne.symm hd),
      Mem.block_set_ne _ _ _ _ (Ne.symm hs)]

theorem run_calls (strcpy : Mem → Ptr → Ptr → Mem) (uninit : Ptr → Nat → Byte) (s : State)
    (data : Ptr) (raw : List Byte) (hne : raw ≠ []) (hin : HoldsInput s.mem data raw) :
    strcpyCalls (LLVMFuzzerTestOneInput strcpy uninit data raw.length s).state.trace =
      strcpyCalls s.trace ++
        [(s.mem.blocks.length + 1, s.mem.blocks.length, memAtCall uninit s.mem raw)] := by
  rw [run_nonempty strcpy uninit s data raw hne hin, checkAndRelease_calls]
  simp [strcpyCalls_append, strcpyCalls]

theorem normalised_getElem?_lt (raw : List Byte) (i : Nat) (hi : i < raw.length) :
    (raw.map replaceNul ++ [0])[i]? = raw[i]?.map replaceNul := by
  rw [List.getElem?_append_left (by simpa using hi), List.getElem?_map]

/-- The harness after the primitive has returned with `d` in the destination
and the normalised source still in place: it returns 0 when `d` is the source,
and aborts otherwise. -/
theorem run_after_copy (strcpy : Mem → Ptr → Ptr → Mem) (uninit : Ptr → Nat → Byte) (s : State)
    (data : Ptr) (raw : List Byte) (hne : raw ≠ []) (hin : HoldsInput s.mem data raw)
    (d : List Byte)
    (hsrc : (strcpy (memAtCall uninit s.mem raw) (s.mem.blocks.length + 1)
      s.mem.blocks.length).block s.mem.blocks.length = some (raw.map replaceNul ++ [0]))
    (hdest : (strcpy (memAtCall uninit s.mem raw) (s.mem.blocks.length + 1)
      s.mem.blocks.length).block (s.mem.blocks.length + 1) = some d)
    (hlen : d.length = raw.length + 1) :
    (d = raw.map replaceNul ++ [0] →
      ∃ s1, LLVMFuzzerTestOneInput strcpy uninit data raw.length s = .val 0 s1) ∧
    (d ≠ raw.map replaceNul ++ [0] →
      ∃ s1, LLVMFuzzerTestOneInput strcpy uninit data raw.length s = .abort s1) := by
  have hrun := run_nonempty strcpy uninit s data raw hne hin
  have hout := check_outcome _ (s.trace ++ [.malloc (raw.length + 1) s.mem.blocks.length,
      .memcpy s.mem.blocks.length data raw.length,
      .malloc (raw.length + 1) (s.mem.blocks.length + 1),
      .strcpy (s.mem.blocks.length + 1) s.mem.blocks.length (memAtCall uninit s.mem raw)])
    _ _ d (raw.map replaceNul) hdest hsrc
    (zero_not_mem_map_replaceNul raw) (by simp [hlen]) (Nat.succ_ne_self _)
  have htake : d.take ((raw.map replaceNul).length + 1) = d := by
    apply List.take_of_length_le
    simp [hlen]
  rw [htake] at hout
  exact ⟨fun h => ⟨_, hrun.trans (hout.1 h)⟩, fun h => ⟨_, hrun.trans (hout.2 h)⟩⟩

theorem ne_iff_exists_getElem? (d b : List Byte) (n : Nat) (hd : d.length = n + 1)
    (hb : b.length = n + 1) : d ≠ b ↔ ∃ i, i ≤ n ∧ d[i]? ≠ b[i]? := by
  constructor
  · intro h
    by_contra hcon
    apply h
    have hall : ∀ i, i < b.length → d[i]? = b[i]? := by
      intro i hi
      by_contra hne
      exact hcon ⟨i, by omega, hne⟩
    have := (take_eq_iff_getElem? d b).mpr hall
    rwa [List.take_of_length_le (by omega)] at this
  · rintro ⟨i, -, hi⟩ h
    exact hi (by rw [h])

/-- The call recorded by a run on a non-empty input is the call on the two
blocks allocated by the harness, in the heap `memAtCall`. -/
theorem call_unique (strcpy : Mem → Ptr → Ptr → Mem) (uninit : Ptr → Nat → Byte) (s : State)
    (data : Ptr) (raw : List Byte) (hne : raw ≠ []) (hin : HoldsInput s.mem data raw)
    (dest src : Ptr) (pre : Mem)
    (hcall : strcpyCalls (LLVMFuzzerTestOneInput strcpy uninit data raw.length s).state.trace =
      strcpyCalls s.trace ++ [(dest, src, pre)]) :
    dest = s.mem.blocks.length + 1 ∧ src = s.mem.blocks.length ∧
      pre = memAtCall uninit s.mem raw := by
  rw [run_calls strcpy uninit s data raw hne hin] at hcall
  have h := List.append_cancel_left hcall
  simp only [List.cons.injEq, Prod.mk.injEq, and_true] at h
  exact ⟨h.1.symm, h.2.1.symm, h.2.2.symm⟩

theorem checkAndRelease_trace (dest src : Ptr) (st : State) :
    ∃ suf, (checkAndRelease dest src st).state.trace = st.trace ++ suf := by
  rcases checkAndRelease_cases dest src st with h | h | h | h
  · exact ⟨[], by simp [h, Res.state]⟩
  · exact ⟨_, by rw [h]; rfl⟩
  · exact ⟨_, by rw [h]; rfl⟩
  · exact ⟨_, by rw [h]; rfl⟩

theorem run_trace (strcpy : Mem → Ptr → Ptr → Mem) (uninit : Ptr → Nat → Byte) (s : State)
    (data : Ptr) (raw : List Byte) (hne : raw ≠ []) (hin : HoldsInput s.mem data raw) :
    ∃ suf, (LLVMFuzzerTestOneInput strcpy uninit data raw.length s).state.trace =
      s.trace ++ [.malloc (raw.length + 1) s.mem.blocks.length,
        .memcpy s.mem.blocks.length data raw.length,
        .malloc (raw.length + 1) (s.mem.blocks.length + 1),
        .strcpy (s.mem.blocks.length + 1) s.mem.blocks.length (memAtCall uninit s.mem raw)]
        ++ suf := by
  rw [run_nonempty strcpy uninit s data raw hne hin]
  exact checkAndRelease_trace _ _ _

theorem Mem.block_of_le (m : Mem) (p : Ptr) (h : m.blocks.length ≤ p) : m.block p = none := by
  unfold Mem.block
  rw [List.getElem?_eq_none h]

theorem truncStrcpy_defective (k : Nat) : CopiesOnlyFirst k (truncStrcpy k) := by
  intro m dest src b d hb hd _ _ _
  constructor
  · simp only [truncStrcpy, hb, hd]
    exact Mem.block_set_self _ _ _ (Mem.block_lt m dest d hd)
  · intro p hp
    simp only [truncStrcpy, hb, hd]
    exact Mem.block_set_ne _ _ _ _ (Ne.symm hp)

theorem trunc_getElem? (b d : List Byte) (k i : Nat) (hk : k ≤ b.length) :
    (b.take k ++ d.drop k)[i]? = if i < k then b[i]? else d[i]? := by
  have hlen : (b.take k).length = k := by simp [hk]
  split
  · next h =>
    rw [List.getElem?_append_left (by omega), List.getElem?_take_of_lt h]
  · next h =>
    rw [List.getElem?_append_right (by omega), hlen, List.getElem?_drop]
    congr 1
    omega

theorem run_preserves_blocks (strcpy : Mem → Ptr → Ptr → Mem) (uninit : Ptr → Nat → Byte)
    (s : State) (data : Ptr) (raw : List Byte) (hin : HoldsInput s.mem data raw)
    (hw : WritesOnlyDest strcpy) (p : Ptr) (hp : p < s.mem.blocks.length) :
    (LLVMFuzzerTestOneInput strcpy uninit data raw.length s).state.mem.block p
      = s.mem.block p := by
  by_cases hne : raw = []
  · subst hne; rfl
  · rw [run_nonempty strcpy uninit s data raw hne hin,
      checkAndRelease_block _ _ p _ (Nat.ne_of_lt (Nat.lt_succ_of_lt hp)) (Nat.ne_of_lt hp)]
    simp only
    rw [hw _ _ _ (memAtCall_pre uninit s.mem raw) p (Nat.ne_of_lt (Nat.lt_succ_of_lt hp)),
      memAtCall_old uninit s.mem raw p hp]

theorem HoldsInput.lt {m : Mem} {data : Ptr} {raw : List Byte} (h : HoldsInput m data raw) :
    data < m.blocks.length := by
  unfold HoldsInput at h
  cases hb : m.block data with
  | none => rw [hb] at h; cases h
  | some blk => exact Mem.block_lt m data blk hb

theorem run_contract (strcpy : Mem → Ptr → Ptr → Mem) (uninit : Ptr → Nat → Byte) (s : State)
    (data : Ptr) (raw : List Byte) (hne : raw ≠ []) (hin : HoldsInput s.mem data raw)
    (hc : StrcpyContract strcpy) :
    LLVMFuzzerTestOneInput strcpy uninit data raw.length s =
      .val 0 ⟨⟨(((strcpy (memAtCall uninit s.mem raw) (s.mem.blocks.length + 1)
          s.mem.blocks.length).blocks.set s.mem.blocks.length none).set
          (s.mem.blocks.length + 1) none)⟩,
        s.trace ++ [.malloc (raw.length + 1) s.mem.blocks.length,
          .memcpy s.mem.blocks.length data raw.length,
          .malloc (raw.length + 1) (s.mem.blocks.length + 1),
          .strcpy (s.mem.blocks.length + 1) s.mem.blocks.length (memAtCall uninit s.mem raw),
          .strcmp (s.mem.blocks.length + 1) s.mem.blocks.length,
          .free s.mem.blocks.length, .free (s.mem.blocks.length + 1)]⟩ := by
  obtain ⟨hsrc, d, hdest, htake, hlen⟩ := post_contract strcpy uninit s.mem raw hc
  have hpass := (check_outcome _ (s.trace ++ [.malloc (raw.length + 1) s.mem.blocks.length,
      .memcpy s.mem.blocks.length data raw.length,
      .malloc (raw.length + 1) (s.mem.blocks.length + 1),
      .strcpy (s.mem.blocks.length + 1) s.mem.blocks.length (memAtCall uninit s.mem raw)])
    _ _ d (raw.map replaceNul) hdest hsrc
    (zero_not_mem_map_replaceNul raw) (by simpa using hlen) (Nat.succ_ne_self _)).1
    (by simpa using htake)
  rw [run_nonempty strcpy uninit s data raw hne hin, hpass]
  simp

theorem run_summary (strcpy : Mem → Ptr → Ptr → Mem) (uninit : Ptr → Nat → Byte) (s : State)
    (data : Ptr) (raw : List Byte) (hin : HoldsInput s.mem data raw)
    (hc : StrcpyContract strcpy) :
    (LLVMFuzzerTestOneInput strcpy uninit data raw.length s).outcome = .returned 0 ∧
    sourcesPassed ((LLVMFuzzerTestOneInput strcpy uninit data raw.length s).state.trace.drop
      s.trace.length) = if raw = [] then [] else [some (normalizeSpec raw)] := by
  by_cases hne : raw = []
  · subst hne
    refine ⟨rfl, ?_⟩
    show sourcesPassed (s.trace.drop s.trace.length) = _
    rw [List.drop_length]
    rfl
  · rw [run_contract strcpy uninit s data raw hne hin hc, if_neg hne]
    refine ⟨rfl, ?_⟩
    simp only [Res.state, List.drop_left, sourcesPassed, strcpyCalls, List.map_cons,
      List.map_nil, memAtCall_src]
    rfl

theorem Mem.block_set_none (B : List (Option (List Byte))) (p : Ptr) :
    (Mem.mk (B.set p none)).block p = none := by
  by_cases h : p < B.length
  · exact Mem.block_set_self B p none h
  · exact Mem.block_of_le _ _ (by simpa using Nat.le_of_not_lt h)

theorem checkAndRelease_dead (dest src : Ptr) (st : State)
    (h : st.mem.block dest = none ∨ st.mem.block src = none) :
    checkAndRelease dest src st = .fault st := by
  rcases h with h | h
  · simp only [checkAndRelease, bind, Prog.bind, strcmp, h]
  · cases hd : st.mem.block dest <;>
      simp only [checkAndRelease, bind, Prog.bind, strcmp, h, hd]

theorem checkAndRelease_live (dest src : Ptr) (st : State)
    (h : ∀ s1, checkAndRelease dest src st ≠ .fault s1) :
    st.mem.block dest ≠ none ∧ st.mem.block src ≠ none := by
  constructor
  · intro hd
    exact h st (checkAndRelease_dead dest src st (Or.inl hd))
  · intro hs
    exact h st (checkAndRelease_dead dest src st (Or.inr hs))

theorem checkAndRelease_val (dest src : Ptr) (st s1 : State) (v : Int)
    (h : checkAndRelease dest src st = .val v s1) :
    v = 0 ∧ s1 = ⟨⟨(st.mem.blocks.set src none).set dest none⟩,
      st.trace ++ [.strcmp dest src, .free src, .free dest]⟩ := by
  rcases checkAndRelease_cases dest src st with h' | h' | h' | h' <;> rw [h'] at h <;> cases h
  exact ⟨rfl, rfl⟩

theorem checkAndRelease_abort (dest src : Ptr) (st s1 : State)
    (h : checkAndRelease dest src st = .abort s1) :
    s1 = ⟨st.mem, st.trace ++ [.strcmp dest src, .abort]⟩ := by
  rcases checkAndRelease_cases dest src st with h' | h' | h' | h' <;> rw [h'] at h <;> cases h
  rfl

theorem builds_normalised (strcpy : Mem → Ptr → Ptr → Mem) (uninit : Ptr → Nat → Byte)
    (s : State) (data : Ptr) (raw : List Byte) (hne : raw ≠ [])
    (hin : HoldsInput s.mem data raw) :
    BuildsSource strcpy uninit data raw.length s (raw.map replaceNul ++ [0]) :=
  ⟨_, _, _, run_calls strcpy uninit s data raw hne hin, memAtCall_src uninit s.mem raw⟩

theorem map_replaceNul_of_not_mem (raw : List Byte) (h : (0 : Byte) ∉ raw) :
    raw.map replaceNul = raw := by
  induction raw with
  | nil => rfl
  | cons x xs ih =>
    have hx : x ≠ 0 := fun h0 => h (h0 ▸ List.mem_cons_self _ _)
    rw [List.map_cons, ih (fun h' => h (List.mem_cons_of_mem _ h'))]
    simp [replaceNul, hx]

theorem strcmpStop_cons_step (x : Byte) (xs ys : List Byte) (hx : x ≠ 0) :
    strcmpStop (x :: xs) (x :: ys) = (strcmpStop xs ys).map (· + 1) := by
  simp [strcmpStop, hx]

theorem strcmpStop_cons_stop (x y : Byte) (xs ys : List Byte) (h : ¬ (x = y ∧ x ≠ 0)) :
    strcmpStop (x :: xs) (y :: ys) = some 0 := by
  rw [strcmpStop, if_neg h]

theorem strcmpBytes_cons_step (x : Byte) (xs ys : List Byte) (hx : x ≠ 0) :
    strcmpBytes (x :: xs) (x :: ys) = strcmpBytes xs ys := by
  simp [strcmpBytes, hx]

theorem strcmpBytes_cons_stop (x y : Byte) (xs ys : List Byte) (h : ¬ (x = y ∧ x ≠ 0)) :
    strcmpBytes (x :: xs) (y :: ys) = some ((x.val : Int) - (y.val : Int)) := by
  rw [strcmpBytes, if_neg h]

theorem strcmpStop_spec : ∀ (a b : List Byte) (k : Nat), strcmpStop a b = some k →
    (∀ i, i < k → a[i]? = b[i]? ∧ a[i]? ≠ some 0) ∧
    ∃ x y, a[k]? = some x ∧ b[k]? = some y ∧ ¬ (x = y ∧ x ≠ 0) ∧
      strcmpBytes a b = some ((x.val : Int) - (y.val : Int))
  | [], _, k, h => by simp [strcmpStop] at h
  | _ :: _, [], k, h => by simp [strcmpStop] at h
  | x :: xs, y :: ys, k, h => by
    by_cases hc : x = y ∧ x ≠ 0
    · obtain ⟨rfl, hx⟩ := hc
      rw [strcmpStop_cons_step x xs ys hx] at h
      obtain ⟨j, hj, rfl⟩ := Option.map_eq_some'.mp h
      obtain ⟨hpre, x', y', hx', hy', hnc, hv⟩ := strcmpStop_spec xs ys j hj
      refine ⟨?_, x', y', by simpa using hx', by simpa using hy', hnc, ?_⟩
      · intro i hi
        cases i with
        | zero => simp [hx]
        | succ i => simpa using hpre i (by omega)
      · rw [strcmpBytes_cons_step x xs ys hx]
        exact hv
    · rw [strcmpStop_cons_stop x y xs ys hc] at h
      cases h
      refine ⟨fun i hi => absurd hi (Nat.not_lt_zero i), x, y, by simp, by simp, hc, ?_⟩
      exact strcmpBytes_cons_stop x y xs ys hc

theorem strcmpStop_cstring (body : List Byte) (h0 : (0 : Byte) ∉ body) :
    ∀ d : List Byte, body.length < d.length →
      ∃ k, strcmpStop d (body ++ [0]) = some k ∧ k ≤ body.length := by
  induction body with
  | nil =>
    intro d hd
    cases d with
    | nil => simp at hd
    | cons x xs =>
      exact ⟨0, strcmpStop_cons_stop x 0 xs [] (fun h => h.2 h.1), le_refl _⟩
  | cons y ys ih =>
    intro d hd
    have h0' : (0 : Byte) ∉ ys := fun h => h0 (List.mem_cons_of_mem _ h)
    cases d with
    | nil => simp at hd
    | cons x xs =>
      by_cases hc : x = y ∧ x ≠ 0
      · obtain ⟨rfl, hx⟩ := hc
        obtain ⟨k, hk, hle⟩ := ih h0' xs (by simpa using hd)
        refine ⟨k + 1, ?_, by simpa using hle⟩
        rw [List.cons_append, strcmpStop_cons_step x xs _ hx, hk]
        rfl
      · exact ⟨0, strcmpStop_cons_stop x y xs _ hc, Nat.zero_le _⟩

theorem strcmpBytes_append : ∀ (a b x y : List Byte) (v : Int), strcmpBytes a b = some v →
    strcmpBytes (a ++ x) (b ++ y) = some v
  | [], _, _, _, v, h => by simp [strcmpBytes] at h
  | _ :: _, [], _, _, v, h => by simp [strcmpBytes] at h
  | p :: ps, q :: qs, x, y, v, h => by
    by_cases hc : p = q ∧ p ≠ 0
    · obtain ⟨rfl, hp⟩ := hc
      rw [strcmpBytes_cons_step p ps qs hp] at h
      rw [List.cons_append, List.cons_append, strcmpBytes_cons_step p _ _ hp]
      exact strcmpBytes_append ps qs x y v h
    · rw [strcmpBytes_cons_stop p q ps qs hc] at h
      rw [List.cons_append, List.cons_append, strcmpBytes_cons_stop p q _ _ hc]
      exact h

theorem truncStrcpy_one_keeps : KeepsBuffers (truncStrcpy 1) := by
  rintro m dest src ⟨body, d0, hs, -, hd0, hlen, hne⟩ b d hb hd
  rw [hs] at hb
  rw [hd0] at hd
  cases hb
  cases hd
  have hdef := truncStrcpy_defective 1 m dest src _ _ hs hd0 hne (by simp) (by omega)
  refine ⟨(hdef.2 src (Ne.symm hne)).trans hs, _, hdef.1, ?_⟩
  simp
  omega

/-! ## Properties of the harness -/

/-- C1 (P1, round trip): for a non-empty input and a primitive that honours its
contract, the harness calls the primitive once, on the normalised input as
source; afterwards the destination equals that source at every index `0..n`
(terminator included), the check does not abort and the entry point returns 0. -/
theorem roundtrip_returns_zero (strcpy : Mem → Ptr → Ptr → Mem) (uninit : Ptr → Nat → Byte)
    (s : State) (data : Ptr) (raw : List Byte) (hne : raw ≠ [])
    (hin : HoldsInput s.mem data raw) (hc : StrcpyContract strcpy) :
    ∃ dest src pre s1,
      LLVMFuzzerTestOneInput strcpy uninit data raw.length s = .val 0 s1 ∧
      strcpyCalls s1.trace = strcpyCalls s.trace ++ [(dest, src, pre)] ∧
      pre.block src = some (normalizeSpec raw) ∧
      ∀ i, i ≤ raw.length → ∃ b, pre.load src i = some b ∧
        (strcpy pre dest src).load src i = some b ∧
        (strcpy pre dest src).load dest i = some b := by
  obtain ⟨hsrc, d, hdest, htake, hlen⟩ := post_contract strcpy uninit s.mem raw hc
  have hrun := run_nonempty strcpy uninit s data raw hne hin
  have hpass := (check_outcome _ (s.trace ++ [.malloc (raw.length + 1) s.mem.blocks.length,
      .memcpy s.mem.blocks.length data raw.length,
      .malloc (raw.length + 1) (s.mem.blocks.length + 1),
      .strcpy (s.mem.blocks.length + 1) s.mem.blocks.length (memAtCall uninit s.mem raw)])
    _ _ d (raw.map replaceNul) hdest hsrc
    (zero_not_mem_map_replaceNul raw) (by simpa using hlen) (Nat.succ_ne_self _)).1
    (by simpa using htake)
  refine ⟨s.mem.blocks.length + 1, s.mem.blocks.length, memAtCall uninit s.mem raw, _,
    hrun.trans hpass, ?_, memAtCall_src uninit s.mem raw, ?_⟩
  · simp [strcpyCalls_append, strcpyCalls]
  · intro i hi
    have hi' : i < (raw.map replaceNul ++ [0]).length := by simp; omega
    refine ⟨(raw.map replaceNul ++ [0])[i], ?_, ?_, ?_⟩
    · simp only [Mem.load, memAtCall_src]
      exact List.getElem?_eq_getElem hi'
    · simp only [Mem.load, hsrc]
      exact List.getElem?_eq_getElem hi'
    · simp only [Mem.load, hdest]
      have := (take_eq_iff_getElem? d (raw.map replaceNul ++ [0])).mp (by simpa using htake) i hi'
      rw [this]
      exact List.getElem?_eq_getElem hi'

/-- Witness of C1: the input `41 00 42` under the reference primitive. -/
theorem roundtrip_returns_zero_witness :
    ([0x41, 0x00, 0x42] : List Byte) ≠ [] ∧ HoldsInput exState.mem 0 [0x41, 0x00, 0x42] ∧
    StrcpyContract refStrcpy ∧
    ∃ dest src pre s1,
      LLVMFuzzerTestOneInput refStrcpy exUninit 0 3 exState = .val 0 s1 ∧
      strcpyCalls s1.trace = strcpyCalls exState.trace ++ [(dest, src, pre)] ∧
      pre.block src = some [0x41, 0x61, 0x42, 0x00] ∧
      ∀ i, i ≤ 3 → ∃ b, pre.load src i = some b ∧
        (refStrcpy pre dest src).load src i = some b ∧
        (refStrcpy pre dest src).load dest i = some b :=
  ⟨by decide, by decide, refStrcpy_contract,
    roundtrip_returns_zero refStrcpy exUninit exState 0 [0x41, 0x00, 0x42] (by decide)
      (by decide) refStrcpy_contract⟩

/-- C2 (P2, terminator placement): for a non-empty input of length `n` the
source buffer handed to the primitive has length `n + 1`, no zero byte at any
index below `n`, a zero byte at index `n`, hence exactly one zero byte. -/
theorem terminator_placement (strcpy : Mem → Ptr → Ptr → Mem) (uninit : Ptr → Nat → Byte)
    (s : State) (data : Ptr) (raw : List Byte) (hne : raw ≠ [])
    (hin : HoldsInput s.mem data raw) :
    ∃ dest src pre b,
      strcpyCalls (LLVMFuzzerTestOneInput strcpy uninit data raw.length s).state.trace =
        strcpyCalls s.trace ++ [(dest, src, pre)] ∧
      pre.block src = some b ∧ b.length = raw.length + 1 ∧
      (∀ i, i < raw.length → b[i]? ≠ some 0) ∧ b[raw.length]? = some 0 ∧ b.count 0 = 1 := by
  refine ⟨_, _, _, _, run_calls strcpy uninit s data raw hne hin, memAtCall_src uninit s.mem raw,
    by simp, ?_, ?_, ?_⟩
  · intro i hi h
    rw [normalised_getElem?_lt raw i hi] at h
    obtain ⟨x, -, hx⟩ := Option.map_eq_some'.mp h
    exact replaceNul_ne_zero x hx
  · rw [List.getElem?_append_right (by simp)]
    simp
  · rw [List.count_append, List.count_eq_zero_of_not_mem (zero_not_mem_map_replaceNul raw)]
    rfl

/-- Witness of C2: the input `41 00 42`. -/
theorem terminator_placement_witness :
    ([0x41, 0x00, 0x42] : List Byte) ≠ [] ∧ HoldsInput exState.mem 0 [0x41, 0x00, 0x42] ∧
    ∃ dest src pre b,
      strcpyCalls (LLVMFuzzerTestOneInput refStrcpy exUninit 0 3 exState).state.trace =
        strcpyCalls exState.trace ++ [(dest, src, pre)] ∧
      pre.block src = some b ∧ b.length = 3 + 1 ∧
      (∀ i, i < 3 → b[i]? ≠ some 0) ∧ b[3]? = some 0 ∧ b.count 0 = 1 :=
  ⟨by decide, by decide,
    terminator_placement refStrcpy exUninit exState 0 [0x41, 0x00, 0x42] (by decide) (by decide)⟩

/-- C3 (P4, byte preservation): for a non-empty input, at every index `i < n`
where the input byte is not zero the source handed to the primitive holds that
same byte; the only cells that differ from the input held a zero byte. -/
theorem byte_preservation (strcpy : Mem → Ptr → Ptr → Mem) (uninit : Ptr → Nat → Byte)
    (s : State) (data : Ptr) (raw : List Byte) (hne : raw ≠ [])
    (hin : HoldsInput s.mem data raw) :
    ∃ dest src pre b,
      strcpyCalls (LLVMFuzzerTestOneInput strcpy uninit data raw.length s).state.trace =
        strcpyCalls s.trace ++ [(dest, src, pre)] ∧
      pre.block src = some b ∧
      (∀ i, i < raw.length → raw[i]? ≠ some 0 → b[i]? = raw[i]?) ∧
      (∀ i, i < raw.length → b[i]? ≠ raw[i]? → raw[i]? = some 0) := by
  have key : ∀ i, i < raw.length → raw[i]? ≠ some 0 →
      (raw.map replaceNul ++ [0])[i]? = raw[i]? := by
    intro i hi h
    rw [normalised_getElem?_lt raw i hi]
    cases hx : raw[i]? with
    | none => rfl
    | some x =>
      have hx0 : x ≠ 0 := fun h0 => h (by rw [hx, h0])
      simp [replaceNul, hx0]
  refine ⟨_, _, _, _, run_calls strcpy uninit s data raw hne hin, memAtCall_src uninit s.mem raw,
    key, ?_⟩
  intro i hi h
  by_contra h0
  exact h (key i hi h0)

/-- Witness of C3: the input `41 00 42`. -/
theorem byte_preservation_witness :
    ([0x41, 0x00, 0x42] : List Byte) ≠ [] ∧ HoldsInput exState.mem 0 [0x41, 0x00, 0x42] ∧
    ∃ dest src pre b,
      strcpyCalls (LLVMFuzzerTestOneInput refStrcpy exUninit 0 3 exState).state.trace =
        strcpyCalls exState.trace ++ [(dest, src, pre)] ∧
      pre.block src = some b ∧
      (∀ i, i < 3 → ([0x41, 0x00, 0x42] : List Byte)[i]? ≠ some 0 →
        b[i]? = ([0x41, 0x00, 0x42] : List Byte)[i]?) ∧
      (∀ i, i < 3 → b[i]? ≠ ([0x41, 0x00, 0x42] : List Byte)[i]? →
        ([0x41, 0x00, 0x42] : List Byte)[i]? = some 0) :=
  ⟨by decide, by decide,
    byte_preservation refStrcpy exUninit exState 0 [0x41, 0x00, 0x42] (by decide) (by decide)⟩

/-- C4 (normaliser, reference definition): for a non-empty input the source
handed to the primitive is the input with every zero byte replaced by `0x61`,
every other byte kept, and one zero byte appended. -/
theorem normaliser_refines_spec (strcpy : Mem → Ptr → Ptr → Mem) (uninit : Ptr → Nat → Byte)
    (s : State) (data : Ptr) (raw : List Byte) (hne : raw ≠ [])
    (hin : HoldsInput s.mem data raw) :
    ∃ dest src pre,
      strcpyCalls (LLVMFuzzerTestOneInput strcpy uninit data raw.length s).state.trace =
        strcpyCalls s.trace ++ [(dest, src, pre)] ∧
      pre.block src = some (normalizeSpec raw) :=
  ⟨_, _, _, run_calls strcpy uninit s data raw hne hin, memAtCall_src uninit s.mem raw⟩

/-- Witness of C4: the three inputs of the specification, `00`, `41 00 42` and
`41 42 43`, give the sources `61 00`, `41 61 42 00` and `41 42 43 00`. -/
theorem normaliser_refines_spec_witness :
    (([0x00] : List Byte) ≠ [] ∧ HoldsInput exState.mem 1 [0x00] ∧
      ∃ dest src pre,
        strcpyCalls (LLVMFuzzerTestOneInput refStrcpy exUninit 1 1 exState).state.trace =
          strcpyCalls exState.trace ++ [(dest, src, pre)] ∧
        pre.block src = some [0x61, 0x00]) ∧
    (([0x41, 0x00, 0x42] : List Byte) ≠ [] ∧ HoldsInput exState.mem 0 [0x41, 0x00, 0x42] ∧
      ∃ dest src pre,
        strcpyCalls (LLVMFuzzerTestOneInput refStrcpy exUninit 0 3 exState).state.trace =
          strcpyCalls exState.trace ++ [(dest, src, pre)] ∧
        pre.block src = some [0x41, 0x61, 0x42, 0x00]) ∧
    (([0x41, 0x42, 0x43] : List Byte) ≠ [] ∧ HoldsInput exState.mem 2 [0x41, 0x42, 0x43] ∧
      ∃ dest src pre,
        strcpyCalls (LLVMFuzzerTestOneInput refStrcpy exUninit 2 3 exState).state.trace =
          strcpyCalls exState.trace ++ [(dest, src, pre)] ∧
        pre.block src = some [0x41, 0x42, 0x43, 0x00]) :=
  ⟨⟨by decide, by decide,
      normaliser_refines_spec refStrcpy exUninit exState 1 [0x00] (by decide) (by decide)⟩,
    ⟨by decide, by decide,
      normaliser_refines_spec refStrcpy exUninit exState 0 [0x41, 0x00, 0x42] (by decide)
        (by decide)⟩,
    ⟨by decide, by decide,
      normaliser_refines_spec refStrcpy exUninit exState 2 [0x41, 0x42, 0x43] (by decide)
        (by decide)⟩⟩

/-- C5 (P3, degenerate no-op): on an input of length 0 the entry point returns
0 in the state it was called in: no allocation, no call of the primitive, no
comparison, no abort; started with an empty trace it ends with an empty trace. -/
theorem empty_input_noop (strcpy : Mem → Ptr → Ptr → Mem) (uninit : Ptr → Nat → Byte)
    (s : State) (data : Ptr) :
    LLVMFuzzerTestOneInput strcpy uninit data ([] : List Byte).length s = .val 0 s ∧
    (LLVMFuzzerTestOneInput strcpy uninit data 0 ⟨s.mem, []⟩).state.trace = [] ∧
    (LLVMFuzzerTestOneInput strcpy uninit data 0 s).state.mem = s.mem :=
  ⟨rfl, rfl, rfl⟩

/-- C6 (oracle exactness): for a non-empty input of length `n`, whatever the
`n + 1` bytes `d` of the destination are once the primitive has run (the
normalised source `b` being still in place), the harness aborts if and only if
`d[i] ≠ b[i]` at some index `i ≤ n`, and returns 0 if and only if there is no
such index; the string comparison is 0 exactly when the two buffers are equal. -/
theorem oracle_exact (strcpy : Mem → Ptr → Ptr → Mem) (uninit : Ptr → Nat → Byte)
    (s : State) (data : Ptr) (raw : List Byte) (dest src : Ptr) (pre : Mem) (b d : List Byte)
    (hne : raw ≠ []) (hin : HoldsInput s.mem data raw)
    (hcall : strcpyCalls (LLVMFuzzerTestOneInput strcpy uninit data raw.length s).state.trace =
      strcpyCalls s.trace ++ [(dest, src, pre)])
    (hb : pre.block src = some b)
    (hsrc : (strcpy pre dest src).block src = some b)
    (hdest : (strcpy pre dest src).block dest = some d)
    (hlen : d.length = raw.length + 1) :
    ((∃ s1, LLVMFuzzerTestOneInput strcpy uninit data raw.length s = .abort s1) ↔
        ∃ i, i ≤ raw.length ∧ d[i]? ≠ b[i]?) ∧
    ((∃ s1, LLVMFuzzerTestOneInput strcpy uninit data raw.length s = .val 0 s1) ↔
        ∀ i, i ≤ raw.length → d[i]? = b[i]?) ∧
    (strcmpBytes d b = some 0 ↔ d = b) := by
  obtain ⟨rfl, rfl, rfl⟩ := call_unique strcpy uninit s data raw hne hin dest src pre hcall
  rw [memAtCall_src] at hb
  cases hb
  obtain ⟨hpass, hfail⟩ := run_after_copy strcpy uninit s data raw hne hin d hsrc hdest hlen
  have hiff := ne_iff_exists_getElem? d (raw.map replaceNul ++ [0]) raw.length hlen (by simp)
  refine ⟨⟨?_, fun h => hfail (hiff.mpr h)⟩, ⟨?_, ?_⟩, ?_⟩
  · rintro ⟨s1, h1⟩
    apply hiff.mp
    intro heq
    obtain ⟨s2, h2⟩ := hpass heq
    rw [h1] at h2
    cases h2
  · rintro ⟨s1, h1⟩ i hi
    by_contra hne'
    obtain ⟨s2, h2⟩ := hfail (hiff.mpr ⟨i, hi, hne'⟩)
    rw [h1] at h2
    cases h2
  · intro h
    apply hpass
    by_contra hne'
    obtain ⟨i, hi, hi'⟩ := hiff.mp hne'
    exact hi' (h i hi)
  · obtain ⟨v, hv, hviff⟩ := strcmpBytes_cstring (raw.map replaceNul)
      (zero_not_mem_map_replaceNul raw) d (by simp [hlen])
    have htake : d.take ((raw.map replaceNul).length + 1) = d := by
      apply List.take_of_length_le
      simp [hlen]
    rw [htake] at hviff
    rw [hv]
    constructor
    · intro h
      exact hviff.mp (Option.some.inj h)
    · intro h
      rw [hviff.mpr h]

/-- Witness of C6: the input `41 00 42` under a primitive that copies one byte;
the destination is left as `41 07 07 07` against the source `41 61 42 00`. -/
theorem oracle_exact_witness :
    ([0x41, 0x00, 0x42] : List Byte) ≠ [] ∧ HoldsInput exState.mem 0 [0x41, 0x00, 0x42] ∧
    strcpyCalls (LLVMFuzzerTestOneInput (truncStrcpy 1) exUninit 0 3 exState).state.trace =
      strcpyCalls exState.trace ++ [(4, 3, memAtCall exUninit exHeap [0x41, 0x00, 0x42])] ∧
    (memAtCall exUninit exHeap [0x41, 0x00, 0x42]).block 3 = some [0x41, 0x61, 0x42, 0x00] ∧
    (truncStrcpy 1 (memAtCall exUninit exHeap [0x41, 0x00, 0x42]) 4 3).block 3
      = some [0x41, 0x61, 0x42, 0x00] ∧
    (truncStrcpy 1 (memAtCall exUninit exHeap [0x41, 0x00, 0x42]) 4 3).block 4
      = some [0x41, 0x07, 0x07, 0x07] ∧
    ([0x41, 0x07, 0x07, 0x07] : List Byte).length = 3 + 1 ∧
    ((∃ s1, LLVMFuzzerTestOneInput (truncStrcpy 1) exUninit 0 3 exState = .abort s1) ↔
        ∃ i, i ≤ 3 ∧ ([0x41, 0x07, 0x07, 0x07] : List Byte)[i]? ≠
          ([0x41, 0x61, 0x42, 0x00] : List Byte)[i]?) ∧
    ((∃ s1, LLVMFuzzerTestOneInput (truncStrcpy 1) exUninit 0 3 exState = .val 0 s1) ↔
        ∀ i, i ≤ 3 → ([0x41, 0x07, 0x07, 0x07] : List Byte)[i]? =
          ([0x41, 0x61, 0x42, 0x00] : List Byte)[i]?) ∧
    (strcmpBytes [0x41, 0x07, 0x07, 0x07] [0x41, 0x61, 0x42, 0x00] = some 0 ↔
      ([0x41, 0x07, 0x07, 0x07] : List Byte) = [0x41, 0x61, 0x42, 0x00]) :=
  ⟨by decide, by decide, by decide, by decide, by decide, by decide, by decide,
    oracle_exact (truncStrcpy 1) exUninit exState 0 [0x41, 0x00, 0x42] 4 3
      (memAtCall exUninit exHeap [0x41, 0x00, 0x42]) [0x41, 0x61, 0x42, 0x00]
      [0x41, 0x07, 0x07, 0x07] (by decide) (by decide) (by decide) (by decide) (by decide)
      (by decide) (by decide)⟩

/-- C7 (precondition of the primitive): for a non-empty input of length `n` the
source handed to the primitive holds exactly one zero byte, at its last index,
so its string length is `n`; the destination has `n + 1` bytes, enough for the
string and its terminator; the two are distinct blocks, both allocated by this
invocation. The call meets the precondition of the contract. -/
theorem precondition_met (strcpy : Mem → Ptr → Ptr → Mem) (uninit : Ptr → Nat → Byte)
    (s : State) (data : Ptr) (raw : List Byte) (hne : raw ≠ [])
    (hin : HoldsInput s.mem data raw) :
    ∃ dest src pre b d,
      strcpyCalls (LLVMFuzzerTestOneInput strcpy uninit data raw.length s).state.trace =
        strcpyCalls s.trace ++ [(dest, src, pre)] ∧
      pre.block src = some b ∧ pre.block dest = some d ∧
      b.count 0 = 1 ∧ b.getLast? = some 0 ∧ strlen b = raw.length ∧
      d.length = raw.length + 1 ∧ strlen b + 1 ≤ d.length ∧
      dest ≠ src ∧ s.mem.block src = none ∧ s.mem.block dest = none ∧
      Event.malloc (raw.length + 1) src ∈
        (LLVMFuzzerTestOneInput strcpy uninit data raw.length s).state.trace ∧
      Event.malloc (raw.length + 1) dest ∈
        (LLVMFuzzerTestOneInput strcpy uninit data raw.length s).state.trace ∧
      StrcpyPre pre dest src := by
  have h0 := zero_not_mem_map_replaceNul raw
  have hlen : strlen (raw.map replaceNul ++ [0]) = raw.length := by
    rw [strlen_cstring _ h0, List.length_map]
  obtain ⟨suf, htr⟩ := run_trace strcpy uninit s data raw hne hin
  refine ⟨_, _, _, _, _, run_calls strcpy uninit s data raw hne hin,
    memAtCall_src uninit s.mem raw, memAtCall_dest uninit s.mem raw, ?_, ?_, hlen, by simp, ?_,
    Nat.succ_ne_self _, Mem.block_of_le _ _ (le_refl _), Mem.block_of_le _ _ (Nat.le_succ _),
    ?_, ?_, memAtCall_pre uninit s.mem raw⟩
  · rw [List.count_append, List.count_eq_zero_of_not_mem h0]
    rfl
  · exact List.getLast?_concat _
  · rw [hlen]; simp
  · rw [htr]; simp
  · rw [htr]; simp

/-- Witness of C7: the input `41 00 42`. -/
theorem precondition_met_witness :
    ([0x41, 0x00, 0x42] : List Byte) ≠ [] ∧ HoldsInput exState.mem 0 [0x41, 0x00, 0x42] ∧
    ∃ dest src pre b d,
      strcpyCalls (LLVMFuzzerTestOneInput refStrcpy exUninit 0 3 exState).state.trace =
        strcpyCalls exState.trace ++ [(dest, src, pre)] ∧
      pre.block src = some b ∧ pre.block dest = some d ∧
      b.count 0 = 1 ∧ b.getLast? = some 0 ∧ strlen b = 3 ∧
      d.length = 3 + 1 ∧ strlen b + 1 ≤ d.length ∧
      dest ≠ src ∧ exState.mem.block src = none ∧ exState.mem.block dest = none ∧
      Event.malloc (3 + 1) src ∈
        (LLVMFuzzerTestOneInput refStrcpy exUninit 0 3 exState).state.trace ∧
      Event.malloc (3 + 1) dest ∈
        (LLVMFuzzerTestOneInput refStrcpy exUninit 0 3 exState).state.trace ∧
      StrcpyPre pre dest src :=
  ⟨by decide, by decide,
    precondition_met refStrcpy exUninit exState 0 [0x41, 0x00, 0x42] (by decide) (by decide)⟩

/-- Counterexample to C8 as stated: the primitive copies one byte only, the
input `41 42` is longer than that bound, and the fresh destination block happens
to hold `00 42 00`. After the truncated copy the destination is `41 42 00`, the
normalised source, so the check passes and the entry point returns 0. -/
theorem truncation_undetected :
    CopiesOnlyFirst 1 (truncStrcpy 1) ∧ 1 < ([0x41, 0x42] : List Byte).length ∧
    HoldsInput staleHeap 0 [0x41, 0x42] ∧
    LLVMFuzzerTestOneInput (truncStrcpy 1) staleUninit 0 2 ⟨staleHeap, []⟩ =
      .val 0 ⟨⟨[some [0x41, 0x42], none, none]⟩,
        [.malloc 3 1, .memcpy 1 0 2, .malloc 3 2,
          .strcpy 2 1 ⟨[some [0x41, 0x42], some [0x41, 0x42, 0x00], some [0x00, 0x42, 0x00]]⟩,
          .strcmp 2 1, .free 1, .free 2]⟩ ∧
    ¬ ∀ (k : Nat) (strcpy : Mem → Ptr → Ptr → Mem) (uninit : Ptr → Nat → Byte) (s : State)
        (data : Ptr) (raw : List Byte), k < raw.length → HoldsInput s.mem data raw →
        CopiesOnlyFirst k strcpy →
        ∃ s1, LLVMFuzzerTestOneInput strcpy uninit data raw.length s = .abort s1 := by
  have heval : LLVMFuzzerTestOneInput (truncStrcpy 1) staleUninit 0 2 ⟨staleHeap, []⟩ =
      .val 0 ⟨⟨[some [0x41, 0x42], none, none]⟩,
        [.malloc 3 1, .memcpy 1 0 2, .malloc 3 2,
          .strcpy 2 1 ⟨[some [0x41, 0x42], some [0x41, 0x42, 0x00], some [0x00, 0x42, 0x00]]⟩,
          .strcmp 2 1, .free 1, .free 2]⟩ := by decide
  refine ⟨truncStrcpy_defective 1, by decide, by decide, heval, ?_⟩
  intro h
  obtain ⟨s1, h1⟩ := h 1 (truncStrcpy 1) staleUninit ⟨staleHeap, []⟩ 0 [0x41, 0x42] (by decide)
    (by decide) (truncStrcpy_defective 1)
  have h2 := heval.symm.trans h1
  cases h2

/-- C8, amended (defect detection): under a primitive that copies only the
first `k` bytes, for an input of length `n > k`, the harness aborts whenever the
initial content `d0` of the destination differs from the source `b` at some
index `i` with `k ≤ i ≤ n` (the destination then mismatches the source at such
an index after the call); when `d0` agrees with `b` on all of `k..n` the
entry point returns 0. -/
theorem truncation_detected (k : Nat) (strcpy : Mem → Ptr → Ptr → Mem)
    (uninit : Ptr → Nat → Byte) (s : State) (data : Ptr) (raw : List Byte)
    (hk : k < raw.length) (hin : HoldsInput s.mem data raw) (hdef : CopiesOnlyFirst k strcpy) :
    ∃ dest src pre b d0,
      strcpyCalls (LLVMFuzzerTestOneInput strcpy uninit data raw.length s).state.trace =
        strcpyCalls s.trace ++ [(dest, src, pre)] ∧
      pre.block src = some b ∧ pre.block dest = some d0 ∧ d0.length = raw.length + 1 ∧
      ((∃ i, k ≤ i ∧ i ≤ raw.length ∧ d0[i]? ≠ b[i]?) →
        (∃ i, k ≤ i ∧ i ≤ raw.length ∧
          (strcpy pre dest src).load dest i ≠ (strcpy pre dest src).load src i) ∧
        ∃ s1, LLVMFuzzerTestOneInput strcpy uninit data raw.length s = .abort s1) ∧
      ((∀ i, k ≤ i → i ≤ raw.length → d0[i]? = b[i]?) →
        ∃ s1, LLVMFuzzerTestOneInput strcpy uninit data raw.length s = .val 0 s1) := by
  have hne : raw ≠ [] := by
    intro h; rw [h] at hk; simp at hk
  have hb := memAtCall_src uninit s.mem raw
  have hd0 := memAtCall_dest uninit s.mem raw
  have hblen : (raw.map replaceNul ++ [0]).length = raw.length + 1 := by simp
  obtain ⟨hdest, hframe⟩ := hdef _ _ _ _ _ hb hd0 (Nat.succ_ne_self _) (by rw [hblen]; omega)
    (by simp; omega)
  have hsrc := (hframe s.mem.blocks.length (Nat.succ_ne_self _).symm).trans hb
  have hget := fun i => trunc_getElem? (raw.map replaceNul ++ [0])
    ((List.range (raw.length + 1)).map (uninit (s.mem.blocks.length + 1))) k i
    (by rw [hblen]; omega)
  obtain ⟨hpass, hfail⟩ := run_after_copy strcpy uninit s data raw hne hin _ hsrc hdest
    (by simp; omega)
  refine ⟨_, _, _, _, _, run_calls strcpy uninit s data raw hne hin, hb, hd0, by simp, ?_, ?_⟩
  · rintro ⟨i, hki, hin', hdiff⟩
    have hi : ¬ i < k := by omega
    constructor
    · refine ⟨i, hki, hin', ?_⟩
      simp only [Mem.load, hdest, hsrc, hget i, hi, if_false]
      exact hdiff
    · apply hfail
      intro heq
      have := hget i
      rw [heq] at this
      simp only [hi, if_false] at this
      exact hdiff this.symm
  · intro hall
    apply hpass
    apply List.ext_getElem?
    intro i
    rw [hget i]
    split
    · rfl
    · next hi =>
      by_cases hle : i ≤ raw.length
      · exact hall i (by omega) hle
      · rw [List.getElem?_eq_none (by simp; omega), List.getElem?_eq_none (by simp; omega)]

/-- Witness of C8 as amended: the input `41 00 42` under a primitive that copies
one byte, into a destination that held `07 07 07 07`. -/
theorem truncation_detected_witness :
    1 < ([0x41, 0x00, 0x42] : List Byte).length ∧ HoldsInput exState.mem 0 [0x41, 0x00, 0x42] ∧
    CopiesOnlyFirst 1 (truncStrcpy 1) ∧
    ∃ dest src pre b d0,
      strcpyCalls (LLVMFuzzerTestOneInput (truncStrcpy 1) exUninit 0 3 exState).state.trace =
        strcpyCalls exState.trace ++ [(dest, src, pre)] ∧
      pre.block src = some b ∧ pre.block dest = some d0 ∧ d0.length = 3 + 1 ∧
      ((∃ i, 1 ≤ i ∧ i ≤ 3 ∧ d0[i]? ≠ b[i]?) →
        (∃ i, 1 ≤ i ∧ i ≤ 3 ∧
          (truncStrcpy 1 pre dest src).load dest i ≠ (truncStrcpy 1 pre dest src).load src i) ∧
        ∃ s1, LLVMFuzzerTestOneInput (truncStrcpy 1) exUninit 0 3 exState = .abort s1) ∧
      ((∀ i, 1 ≤ i → i ≤ 3 → d0[i]? = b[i]?) →
        ∃ s1, LLVMFuzzerTestOneInput (truncStrcpy 1) exUninit 0 3 exState = .val 0 s1) :=
  ⟨by decide, by decide, truncStrcpy_defective 1,
    truncation_detected 1 (truncStrcpy 1) exUninit exState 0 [0x41, 0x00, 0x42] (by decide)
      (by decide) (truncStrcpy_defective 1)⟩

/-- C9 (the raw input is immutable): for every input, empty or not, and every
primitive that writes only into its destination, the caller's data block holds
after the invocation, however it ends, exactly the bytes it held before. -/
theorem input_unchanged (strcpy : Mem → Ptr → Ptr → Mem) (uninit : Ptr → Nat → Byte)
    (s : State) (data : Ptr) (raw : List Byte) (hin : HoldsInput s.mem data raw)
    (hw : WritesOnlyDest strcpy) :
    (LLVMFuzzerTestOneInput strcpy uninit data raw.length s).state.mem.block data
      = s.mem.block data ∧
    HoldsInput (LLVMFuzzerTestOneInput strcpy uninit data raw.length s).state.mem data raw := by
  have h := run_preserves_blocks strcpy uninit s data raw hin hw data hin.lt
  refine ⟨h, ?_⟩
  unfold HoldsInput at hin ⊢
  rw [h]
  exact hin

/-- Witness of C9: the input `41 00 42` (which holds a zero byte, replaced in
the copy only) under the reference primitive. -/
theorem input_unchanged_witness :
    HoldsInput exState.mem 0 [0x41, 0x00, 0x42] ∧ WritesOnlyDest refStrcpy ∧
    (LLVMFuzzerTestOneInput refStrcpy exUninit 0 3 exState).state.mem.block 0
      = exState.mem.block 0 ∧
    HoldsInput (LLVMFuzzerTestOneInput refStrcpy exUninit 0 3 exState).state.mem 0
      [0x41, 0x00, 0x42] :=
  ⟨by decide, refStrcpy_contract.2,
    input_unchanged refStrcpy exUninit exState 0 [0x41, 0x00, 0x42] (by decide)
      refStrcpy_contract.2⟩

/-- C10 (P5, isolation): for two inputs found in the heap and a primitive that
honours its contract, the first invocation returns 0, and the second invocation
run after it ends with the same outcome, and hands the same source string to
the primitive, as the same invocation run alone from the initial state
(whatever the content of the fresh allocations in either run). -/
theorem invocations_isolated (strcpy : Mem → Ptr → Ptr → Mem) (uninit uninit' : Ptr → Nat → Byte)
    (s : State) (data1 data2 : Ptr) (raw1 raw2 : List Byte)
    (hc : StrcpyContract strcpy) (h1 : HoldsInput s.mem data1 raw1)
    (h2 : HoldsInput s.mem data2 raw2) :
    (LLVMFuzzerTestOneInput strcpy uninit data1 raw1.length s).outcome = .returned 0 ∧
    (LLVMFuzzerTestOneInput strcpy uninit data2 raw2.length
        (LLVMFuzzerTestOneInput strcpy uninit data1 raw1.length s).state).outcome =
      (LLVMFuzzerTestOneInput strcpy uninit' data2 raw2.length s).outcome ∧
    sourcesPassed ((LLVMFuzzerTestOneInput strcpy uninit data2 raw2.length
        (LLVMFuzzerTestOneInput strcpy uninit data1 raw1.length s).state).state.trace.drop
        (LLVMFuzzerTestOneInput strcpy uninit data1 raw1.length s).state.trace.length) =
      sourcesPassed ((LLVMFuzzerTestOneInput strcpy uninit' data2 raw2.length s).state.trace.drop
        s.trace.length) := by
  have h2' : HoldsInput (LLVMFuzzerTestOneInput strcpy uninit data1 raw1.length s).state.mem
      data2 raw2 := by
    have h := run_preserves_blocks strcpy uninit s data1 raw1 h1 hc.2 data2 h2.lt
    unfold HoldsInput at h2 ⊢
    rw [h]
    exact h2
  obtain ⟨hout1, -⟩ := run_summary strcpy uninit s data1 raw1 h1 hc
  obtain ⟨houtA, hsrcA⟩ := run_summary strcpy uninit _ data2 raw2 h2' hc
  obtain ⟨houtB, hsrcB⟩ := run_summary strcpy uninit' s data2 raw2 h2 hc
  exact ⟨hout1, houtA.trans houtB.symm, hsrcA.trans hsrcB.symm⟩

/-- Witness of C10: the input `00` first, then the input `41 00 42`, under the
reference primitive; the run alone sees other content in its fresh blocks. -/
theorem invocations_isolated_witness :
    StrcpyContract refStrcpy ∧ HoldsInput exState.mem 1 [0x00] ∧
    HoldsInput exState.mem 0 [0x41, 0x00, 0x42] ∧
    (LLVMFuzzerTestOneInput refStrcpy exUninit 1 1 exState).outcome = .returned 0 ∧
    (LLVMFuzzerTestOneInput refStrcpy exUninit 0 3
        (LLVMFuzzerTestOneInput refStrcpy exUninit 1 1 exState).state).outcome =
      (LLVMFuzzerTestOneInput refStrcpy staleUninit 0 3 exState).outcome ∧
    sourcesPassed ((LLVMFuzzerTestOneInput refStrcpy exUninit 0 3
        (LLVMFuzzerTestOneInput refStrcpy exUninit 1 1 exState).state).state.trace.drop
        (LLVMFuzzerTestOneInput refStrcpy exUninit 1 1 exState).state.trace.length) =
      sourcesPassed ((LLVMFuzzerTestOneInput refStrcpy staleUninit 0 3 exState).state.trace.drop
        exState.trace.length) :=
  ⟨refStrcpy_contract, by decide, by decide,
    invocations_isolated refStrcpy exUninit staleUninit exState 1 0 [0x00] [0x41, 0x00, 0x42]
      refStrcpy_contract (by decide) (by decide)⟩

/-- C11 (resource discipline): for a non-empty input of length `n`, when the
entry point returns it returns 0 and the calls it made are, in this order, the
allocation of `n + 1` bytes for the source, the `memcpy`, the allocation of
`n + 1` bytes for the destination, one call of the primitive on (destination,
source), the comparison, the release of the source and the release of the
destination, both blocks being dead at the end; when it aborts, the calls are
the same up to the comparison, followed by `abort` alone, and both blocks are
still live. -/
theorem resource_discipline (strcpy : Mem → Ptr → Ptr → Mem) (uninit : Ptr → Nat → Byte)
    (s : State) (data : Ptr) (raw : List Byte) (hne : raw ≠ [])
    (hin : HoldsInput s.mem data raw) :
    ∃ src dest pre, src ≠ dest ∧
      (∀ v s1, LLVMFuzzerTestOneInput strcpy uninit data raw.length s = .val v s1 →
        v = 0 ∧
        s1.trace = s.trace ++ [.malloc (raw.length + 1) src, .memcpy src data raw.length,
          .malloc (raw.length + 1) dest, .strcpy dest src pre, .strcmp dest src,
          .free src, .free dest] ∧
        s1.mem.block src = none ∧ s1.mem.block dest = none) ∧
      (∀ s1, LLVMFuzzerTestOneInput strcpy uninit data raw.length s = .abort s1 →
        s1.trace = s.trace ++ [.malloc (raw.length + 1) src, .memcpy src data raw.length,
          .malloc (raw.length + 1) dest, .strcpy dest src pre, .strcmp dest src, .abort] ∧
        s1.mem.block src ≠ none ∧ s1.mem.block dest ≠ none) := by
  have hrun := run_nonempty strcpy uninit s data raw hne hin
  refine ⟨s.mem.blocks.length, s.mem.blocks.length + 1, memAtCall uninit s.mem raw,
    (Nat.succ_ne_self _).symm, ?_, ?_⟩
  · intro v s1 h
    rw [hrun] at h
    obtain ⟨hv, hs1⟩ := checkAndRelease_val _ _ _ _ _ h
    subst hs1
    refine ⟨hv, by simp, ?_, ?_⟩
    · show (Mem.mk _).block _ = none
      rw [Mem.block_set_ne _ _ _ _ (Nat.succ_ne_self _)]
      exact Mem.block_set_none _ _
    · exact Mem.block_set_none _ _
  · intro s1 h
    rw [hrun] at h
    have hlive := checkAndRelease_live _ _ _ (fun s2 h2 => by rw [h] at h2; cases h2)
    have hs1 := checkAndRelease_abort _ _ _ _ h
    subst hs1
    exact ⟨by simp, hlive.2, hlive.1⟩

/-- Witness of C11: the input `41 00 42`, under the reference primitive (the
entry point returns 0) and under a primitive that copies one byte (it aborts). -/
theorem resource_discipline_witness :
    ([0x41, 0x00, 0x42] : List Byte) ≠ [] ∧ HoldsInput exState.mem 0 [0x41, 0x00, 0x42] ∧
    (LLVMFuzzerTestOneInput refStrcpy exUninit 0 3 exState).outcome = .returned 0 ∧
    (LLVMFuzzerTestOneInput (truncStrcpy 1) exUninit 0 3 exState).outcome = .aborted ∧
    (∃ src dest pre, src ≠ dest ∧
      (∀ v s1, LLVMFuzzerTestOneInput refStrcpy exUninit 0 3 exState = .val v s1 →
        v = 0 ∧
        s1.trace = exState.trace ++ [.malloc (3 + 1) src, .memcpy src 0 3,
          .malloc (3 + 1) dest, .strcpy dest src pre, .strcmp dest src,
          .free src, .free dest] ∧
        s1.mem.block src = none ∧ s1.mem.block dest = none) ∧
      (∀ s1, LLVMFuzzerTestOneInput refStrcpy exUninit 0 3 exState = .abort s1 →
        s1.trace = exState.trace ++ [.malloc (3 + 1) src, .memcpy src 0 3,
          .malloc (3 + 1) dest, .strcpy dest src pre, .strcmp dest src, .abort] ∧
        s1.mem.block src ≠ none ∧ s1.mem.block dest ≠ none)) ∧
    (∃ src dest pre, src ≠ dest ∧
      (∀ v s1, LLVMFuzzerTestOneInput (truncStrcpy 1) exUninit 0 3 exState = .val v s1 →
        v = 0 ∧
        s1.trace = exState.trace ++ [.malloc (3 + 1) src, .memcpy src 0 3,
          .malloc (3 + 1) dest, .strcpy dest src pre, .strcmp dest src,
          .free src, .free dest] ∧
        s1.mem.block src = none ∧ s1.mem.block dest = none) ∧
      (∀ s1, LLVMFuzzerTestOneInput (truncStrcpy 1) exUninit 0 3 exState = .abort s1 →
        s1.trace = exState.trace ++ [.malloc (3 + 1) src, .memcpy src 0 3,
          .malloc (3 + 1) dest, .strcpy dest src pre, .strcmp dest src, .abort] ∧
        s1.mem.block src ≠ none ∧ s1.mem.block dest ≠ none)) :=
  ⟨by decide, by decide, by decide, by decide,
    resource_discipline refStrcpy exUninit exState 0 [0x41, 0x00, 0x42] (by decide) (by decide),
    resource_discipline (truncStrcpy 1) exUninit exState 0 [0x41, 0x00, 0x42] (by decide)
      (by decide)⟩

/-- C12 (normalisation is a projection onto valid strings): (a) for a non-empty
input without zero byte the source handed to the primitive is the input
followed by one zero byte; (b) for every non-empty input of length `n`, with or
without zero bytes, the source `b` handed to the primitive is a valid string
(`n + 1` bytes, the last one zero, no zero byte before it), it is the
normalisation `normalizeSpec raw`, and running the harness on the first `n`
bytes of `b` builds `b` again; (c) every byte sequence of length at least 2
whose only zero byte is its last is the source built for some non-empty input. -/
theorem normalise_projection :
    (∀ (strcpy : Mem → Ptr → Ptr → Mem) (uninit : Ptr → Nat → Byte) (s : State) (data : Ptr)
        (raw : List Byte), raw ≠ [] → (0 : Byte) ∉ raw → HoldsInput s.mem data raw →
        BuildsSource strcpy uninit data raw.length s (raw ++ [0])) ∧
    (∀ (strcpy : Mem → Ptr → Ptr → Mem) (uninit : Ptr → Nat → Byte) (s : State) (data : Ptr)
        (raw : List Byte), raw ≠ [] → HoldsInput s.mem data raw →
        ∃ b, BuildsSource strcpy uninit data raw.length s b ∧
          b = normalizeSpec raw ∧
          b.length = raw.length + 1 ∧ b.getLast? = some 0 ∧ (0 : Byte) ∉ b.dropLast ∧
          (0 : Byte) ∉ b.take raw.length ∧ b.count 0 = 1 ∧
          ∀ (strcpy2 : Mem → Ptr → Ptr → Mem) (uninit2 : Ptr → Nat → Byte) (s2 : State)
            (data2 : Ptr), HoldsInput s2.mem data2 (b.take raw.length) →
            BuildsSource strcpy2 uninit2 data2 raw.length s2 b) ∧
    (∀ t : List Byte, 2 ≤ t.length → t.getLast? = some 0 → (0 : Byte) ∉ t.dropLast →
        ∃ raw, raw ≠ [] ∧ ∃ (s : State) (data : Ptr), HoldsInput s.mem data raw ∧
          ∀ (strcpy : Mem → Ptr → Ptr → Mem) (uninit : Ptr → Nat → Byte),
            BuildsSource strcpy uninit data raw.length s t) := by
  refine ⟨?_, ?_, ?_⟩
  · intro strcpy uninit s data raw hne h0 hin
    have h := builds_normalised strcpy uninit s data raw hne hin
    rwa [map_replaceNul_of_not_mem raw h0] at h
  · intro strcpy uninit s data raw hne hin
    have h0 := zero_not_mem_map_replaceNul raw
    have htake : (raw.map replaceNul ++ [0]).take raw.length = raw.map replaceNul := by
      rw [List.take_left' (by simp)]
    refine ⟨_, builds_normalised strcpy uninit s data raw hne hin, rfl, by simp,
      List.getLast?_concat _, ?_, ?_, ?_, ?_⟩
    · rw [List.dropLast_concat]
      exact h0
    · rw [htake]
      exact h0
    · rw [List.count_append, List.count_eq_zero_of_not_mem h0]
      rfl
    · intro strcpy2 uninit2 s2 data2 hin2
      rw [htake] at hin2
      have hne2 : raw.map replaceNul ≠ [] := by
        intro h
        exact hne (List.map_eq_nil_iff.mp h)
      have h := builds_normalised strcpy2 uninit2 s2 data2 (raw.map replaceNul) hne2 hin2
      rw [map_replaceNul_of_not_mem _ h0, List.length_map] at h
      exact h
  · intro t hlen hlast h0
    have ht : t.dropLast ++ [0] = t := List.dropLast_append_getLast? 0 (by rw [hlast]; rfl)
    have hne : t.dropLast ≠ [] := by
      intro h
      have := congrArg List.length h
      simp at this
      omega
    refine ⟨t.dropLast, hne, ⟨⟨[some t.dropLast]⟩, []⟩, 0, ?_, ?_⟩
    · simp [HoldsInput, Mem.block]
    · intro strcpy uninit
      have h := builds_normalised strcpy uninit ⟨⟨[some t.dropLast]⟩, []⟩ 0 t.dropLast hne
        (by simp [HoldsInput, Mem.block])
      rw [map_replaceNul_of_not_mem _ h0, ht] at h
      exact h

/-- Witness of C12: (a) the input `41 42 43`; (b) the input `41 00 42`, whose
source is `41 61 42 00`, a valid string although the input holds a zero byte,
built again from `41 61 42`; (c) the string `41 61 42 00`. -/
theorem normalise_projection_witness :
    (([0x41, 0x42, 0x43] : List Byte) ≠ [] ∧ (0 : Byte) ∉ ([0x41, 0x42, 0x43] : List Byte) ∧
      HoldsInput exState.mem 2 [0x41, 0x42, 0x43] ∧
      BuildsSource refStrcpy exUninit 2 3 exState [0x41, 0x42, 0x43, 0x00]) ∧
    (([0x41, 0x00, 0x42] : List Byte) ≠ [] ∧ HoldsInput exState.mem 0 [0x41, 0x00, 0x42] ∧
      ∃ b, BuildsSource refStrcpy exUninit 0 3 exState b ∧
        b = [0x41, 0x61, 0x42, 0x00] ∧
        b.length = 3 + 1 ∧ b.getLast? = some 0 ∧ (0 : Byte) ∉ b.dropLast ∧
        (0 : Byte) ∉ b.take 3 ∧ b.count 0 = 1 ∧
        ∀ (strcpy2 : Mem → Ptr → Ptr → Mem) (uninit2 : Ptr → Nat → Byte) (s2 : State)
          (data2 : Ptr), HoldsInput s2.mem data2 (b.take 3) →
          BuildsSource strcpy2 uninit2 data2 3 s2 b) ∧
    (2 ≤ ([0x41, 0x61, 0x42, 0x00] : List Byte).length ∧
      ([0x41, 0x61, 0x42, 0x00] : List Byte).getLast? = some 0 ∧
      (0 : Byte) ∉ ([0x41, 0x61, 0x42, 0x00] : List Byte).dropLast ∧
      ∃ raw, raw ≠ [] ∧ ∃ (s : State) (data : Ptr), HoldsInput s.mem data raw ∧
        ∀ (strcpy : Mem → Ptr → Ptr → Mem) (uninit : Ptr → Nat → Byte),
          BuildsSource strcpy uninit data raw.length s [0x41, 0x61, 0x42, 0x00]) :=
  ⟨⟨by decide, by decide, by decide,
      normalise_projection.1 refStrcpy exUninit exState 2 [0x41, 0x42, 0x43] (by decide)
        (by decide) (by decide)⟩,
    ⟨by decide, by decide,
      normalise_projection.2.1 refStrcpy exUninit exState 0 [0x41, 0x00, 0x42] (by decide)
        (by decide)⟩,
    ⟨by decide, by decide, by decide,
      normalise_projection.2.2 [0x41, 0x61, 0x42, 0x00] (by decide) (by decide) (by decide)⟩⟩

/-- C13 (read bounds of the oracle): for a non-empty input of length `n`,
whatever `n + 1` bytes `d` the destination holds once the primitive has run
(with or without a zero byte; the normalised source `b` being still in place),
the loop of `strcmp(dest, src)` stops at an index `k ≤ n`: both buffers agree
and are non-zero below `k`, the result is computed from `d[k]` and `b[k]`, both
inside their blocks, bytes placed after either buffer do not change the result,
and the invocation ends by returning 0 or by aborting, never by an
out-of-bounds access. -/
theorem oracle_reads_in_bounds (strcpy : Mem → Ptr → Ptr → Mem) (uninit : Ptr → Nat → Byte)
    (s : State) (data : Ptr) (raw : List Byte) (dest src : Ptr) (pre : Mem) (b d : List Byte)
    (hne : raw ≠ []) (hin : HoldsInput s.mem data raw)
    (hcall : strcpyCalls (LLVMFuzzerTestOneInput strcpy uninit data raw.length s).state.trace =
      strcpyCalls s.trace ++ [(dest, src, pre)])
    (hb : pre.block src = some b)
    (hsrc : (strcpy pre dest src).block src = some b)
    (hdest : (strcpy pre dest src).block dest = some d)
    (hlen : d.length = raw.length + 1) :
    ∃ k, strcmpStop d b = some k ∧ k ≤ raw.length ∧
      (∀ i, i < k → d[i]? = b[i]? ∧ d[i]? ≠ some 0) ∧
      (∃ x y, d[k]? = some x ∧ b[k]? = some y ∧
        strcmpBytes d b = some ((x.val : Int) - (y.val : Int))) ∧
      (∀ x y, strcmpBytes (d ++ x) (b ++ y) = strcmpBytes d b) ∧
      ((LLVMFuzzerTestOneInput strcpy uninit data raw.length s).outcome = .returned 0 ∨
        (LLVMFuzzerTestOneInput strcpy uninit data raw.length s).outcome = .aborted) := by
  obtain ⟨rfl, rfl, rfl⟩ := call_unique strcpy uninit s data raw hne hin dest src pre hcall
  rw [memAtCall_src] at hb
  cases hb
  obtain ⟨k, hk, hle⟩ := strcmpStop_cstring (raw.map replaceNul)
    (zero_not_mem_map_replaceNul raw) d (by simp [hlen])
  obtain ⟨hpre, x, y, hx, hy, -, hv⟩ := strcmpStop_spec _ _ k hk
  refine ⟨k, hk, by simpa using hle, hpre, ⟨x, y, hx, hy, hv⟩, ?_, ?_⟩
  · intro x' y'
    rw [hv]
    exact strcmpBytes_append _ _ x' y' _ hv
  · obtain ⟨hpass, hfail⟩ := run_after_copy strcpy uninit s data raw hne hin d hsrc hdest hlen
    by_cases heq : d = raw.map replaceNul ++ [0]
    · obtain ⟨s1, h1⟩ := hpass heq
      left; rw [h1]; rfl
    · obtain ⟨s1, h1⟩ := hfail heq
      right; rw [h1]; rfl

/-- Witness of C13: the input `41 00 42` under a primitive that copies one byte;
the destination is left as `41 07 07 07`, without any zero byte, against the
source `41 61 42 00`. -/
theorem oracle_reads_in_bounds_witness :
    ([0x41, 0x00, 0x42] : List Byte) ≠ [] ∧ HoldsInput exState.mem 0 [0x41, 0x00, 0x42] ∧
    strcpyCalls (LLVMFuzzerTestOneInput (truncStrcpy 1) exUninit 0 3 exState).state.trace =
      strcpyCalls exState.trace ++ [(4, 3, memAtCall exUninit exHeap [0x41, 0x00, 0x42])] ∧
    (memAtCall exUninit exHeap [0x41, 0x00, 0x42]).block 3 = some [0x41, 0x61, 0x42, 0x00] ∧
    (truncStrcpy 1 (memAtCall exUninit exHeap [0x41, 0x00, 0x42]) 4 3).block 3
      = some [0x41, 0x61, 0x42, 0x00] ∧
    (truncStrcpy 1 (memAtCall exUninit exHeap [0x41, 0x00, 0x42]) 4 3).block 4
      = some [0x41, 0x07, 0x07, 0x07] ∧
    ([0x41, 0x07, 0x07, 0x07] : List Byte).length = 3 + 1 ∧
    ∃ k, strcmpStop [0x41, 0x07, 0x07, 0x07] [0x41, 0x61, 0x42, 0x00] = some k ∧ k ≤ 3 ∧
      (∀ i, i < k → ([0x41, 0x07, 0x07, 0x07] : List Byte)[i]? =
          ([0x41, 0x61, 0x42, 0x00] : List Byte)[i]? ∧
        ([0x41, 0x07, 0x07, 0x07] : List Byte)[i]? ≠ some 0) ∧
      (∃ x y, ([0x41, 0x07, 0x07, 0x07] : List Byte)[k]? = some x ∧
        ([0x41, 0x61, 0x42, 0x00] : List Byte)[k]? = some y ∧
        strcmpBytes [0x41, 0x07, 0x07, 0x07] [0x41, 0x61, 0x42, 0x00] =
          some ((x.val : Int) - (y.val : Int))) ∧
      (∀ x y, strcmpBytes ([0x41, 0x07, 0x07, 0x07] ++ x) ([0x41, 0x61, 0x42, 0x00] ++ y) =
        strcmpBytes [0x41, 0x07, 0x07, 0x07] [0x41, 0x61, 0x42, 0x00]) ∧
      ((LLVMFuzzerTestOneInput (truncStrcpy 1) exUninit 0 3 exState).outcome = .returned 0 ∨
        (LLVMFuzzerTestOneInput (truncStrcpy 1) exUninit 0 3 exState).outcome = .aborted) :=
  ⟨by decide, by decide, by decide, by decide, by decide, by decide, by decide,
    oracle_reads_in_bounds (truncStrcpy 1) exUninit exState 0 [0x41, 0x00, 0x42] 4 3
      (memAtCall exUninit exHeap [0x41, 0x00, 0x42]) [0x41, 0x61, 0x42, 0x00]
      [0x41, 0x07, 0x07, 0x07] (by decide) (by decide) (by decide) (by decide) (by decide)
      (by decide) (by decide)⟩

/-- C14 (independence from the uninitialised destination): for a non-empty
input and a primitive that honours its contract, take any two fillings `uninit`
and `uninit2` of fresh blocks. Both invocations call the primitive on the same
blocks with the same source; the destination holds `d1` in one and `d2` in the
other when the primitive is called; both invocations return 0. -/
theorem dest_content_irrelevant (strcpy : Mem → Ptr → Ptr → Mem)
    (uninit uninit2 : Ptr → Nat → Byte) (s : State) (data : Ptr) (raw : List Byte)
    (hne : raw ≠ []) (hin : HoldsInput s.mem data raw) (hc : StrcpyContract strcpy) :
    ∃ dest src pre1 pre2 d1 d2,
      strcpyCalls (LLVMFuzzerTestOneInput strcpy uninit data raw.length s).state.trace =
        strcpyCalls s.trace ++ [(dest, src, pre1)] ∧
      strcpyCalls (LLVMFuzzerTestOneInput strcpy uninit2 data raw.length s).state.trace =
        strcpyCalls s.trace ++ [(dest, src, pre2)] ∧
      pre1.block src = pre2.block src ∧
      pre1.block dest = some d1 ∧ pre2.block dest = some d2 ∧
      d1 = (List.range (raw.length + 1)).map (uninit dest) ∧
      d2 = (List.range (raw.length + 1)).map (uninit2 dest) ∧
      (LLVMFuzzerTestOneInput strcpy uninit data raw.length s).outcome = .returned 0 ∧
      (LLVMFuzzerTestOneInput strcpy uninit2 data raw.length s).outcome = .returned 0 ∧
      (LLVMFuzzerTestOneInput strcpy uninit data raw.length s).outcome =
        (LLVMFuzzerTestOneInput strcpy uninit2 data raw.length s).outcome := by
  have h1 := (run_summary strcpy uninit s data raw hin hc).1
  have h2 := (run_summary strcpy uninit2 s data raw hin hc).1
  exact ⟨_, _, _, _, _, _, run_calls strcpy uninit s data raw hne hin,
    run_calls strcpy uninit2 s data raw hne hin,
    (memAtCall_src uninit s.mem raw).trans (memAtCall_src uninit2 s.mem raw).symm,
    memAtCall_dest uninit s.mem raw, memAtCall_dest uninit2 s.mem raw, rfl, rfl, h1, h2,
    h1.trans h2.symm⟩

/-- Witness of C14: the input `41 00 42` under the reference primitive, the
fresh blocks holding `07 07 07 07` in one run and `00 42 00 00` in the other. -/
theorem dest_content_irrelevant_witness :
    ([0x41, 0x00, 0x42] : List Byte) ≠ [] ∧ HoldsInput exState.mem 0 [0x41, 0x00, 0x42] ∧
    StrcpyContract refStrcpy ∧
    ∃ dest src pre1 pre2 d1 d2,
      strcpyCalls (LLVMFuzzerTestOneInput refStrcpy exUninit 0 3 exState).state.trace =
        strcpyCalls exState.trace ++ [(dest, src, pre1)] ∧
      strcpyCalls (LLVMFuzzerTestOneInput refStrcpy staleUninit 0 3 exState).state.trace =
        strcpyCalls exState.trace ++ [(dest, src, pre2)] ∧
      pre1.block src = pre2.block src ∧
      pre1.block dest = some d1 ∧ pre2.block dest = some d2 ∧
      d1 = (List.range (3 + 1)).map (exUninit dest) ∧
      d2 = (List.range (3 + 1)).map (staleUninit dest) ∧
      (LLVMFuzzerTestOneInput refStrcpy exUninit 0 3 exState).outcome = .returned 0 ∧
      (LLVMFuzzerTestOneInput refStrcpy staleUninit 0 3 exState).outcome = .returned 0 ∧
      (LLVMFuzzerTestOneInput refStrcpy exUninit 0 3 exState).outcome =
        (LLVMFuzzerTestOneInput refStrcpy staleUninit 0 3 exState).outcome :=
  ⟨by decide, by decide, refStrcpy_contract,
    dest_content_irrelevant refStrcpy exUninit staleUninit exState 0 [0x41, 0x00, 0x42]
      (by decide) (by decide) refStrcpy_contract⟩

/-- Counterexample to C15 as stated: under a primitive that copies in the wrong
direction the source `41 61 42 00` is overwritten by the content `07 07 07 07`
of the fresh destination; the comparison then finds no terminator and no
difference inside the two blocks and reads past their end. The invocation ends
neither by a return of 0 nor by `abort()`. -/
theorem outcome_undefined_when_source_clobbered :
    HoldsInput exState.mem 0 [0x41, 0x00, 0x42] ∧
    LLVMFuzzerTestOneInput swappedStrcpy exUninit 0 3 exState =
      .fault ⟨⟨[some [0x41, 0x00, 0x42], some [0x00], some [0x41, 0x42, 0x43],
          some [0x07, 0x07, 0x07, 0x07], some [0x07, 0x07, 0x07, 0x07]]⟩,
        [.malloc 4 3, .memcpy 3 0 3, .malloc 4 4,
          .strcpy 4 3 ⟨[some [0x41, 0x00, 0x42], some [0x00], some [0x41, 0x42, 0x43],
            some [0x41, 0x61, 0x42, 0x00], some [0x07, 0x07, 0x07, 0x07]]⟩]⟩ ∧
    (LLVMFuzzerTestOneInput swappedStrcpy exUninit 0 3 exState).outcome ≠ .returned 0 ∧
    (LLVMFuzzerTestOneInput swappedStrcpy exUninit 0 3 exState).outcome ≠ .aborted ∧
    ¬ ∀ (strcpy : Mem → Ptr → Ptr → Mem) (uninit : Ptr → Nat → Byte) (s : State) (data : Ptr)
        (raw : List Byte), HoldsInput s.mem data raw →
        (LLVMFuzzerTestOneInput strcpy uninit data raw.length s).outcome = .returned 0 ∨
        (LLVMFuzzerTestOneInput strcpy uninit data raw.length s).outcome = .aborted := by
  have h1 : (LLVMFuzzerTestOneInput swappedStrcpy exUninit 0 3 exState).outcome ≠ .returned 0 := by
    decide
  have h2 : (LLVMFuzzerTestOneInput swappedStrcpy exUninit 0 3 exState).outcome ≠ .aborted := by
    decide
  refine ⟨by decide, by decide, h1, h2, ?_⟩
  intro h
  rcases h swappedStrcpy exUninit exState 0 [0x41, 0x00, 0x42] (by decide) with h | h
  · exact h1 h
  · exact h2 h

/-- C15, amended (outcome space): for every input held by the caller's buffer
and every content of fresh allocations, (i) under a primitive, correct or
defective, that leaves the source block intact and the destination a live block
of the same size, the entry point either returns 0 or aborts; (ii) under any
primitive whatsoever a return is a return of 0; (iii) under any primitive
whatsoever an abort occurs only for a non-empty input, after the primitive has
been called and the comparison made. -/
theorem outcome_space (strcpy : Mem → Ptr → Ptr → Mem) (uninit : Ptr → Nat → Byte)
    (s : State) (data : Ptr) (raw : List Byte) (hin : HoldsInput s.mem data raw) :
    (KeepsBuffers strcpy →
      (LLVMFuzzerTestOneInput strcpy uninit data raw.length s).outcome = .returned 0 ∨
      (LLVMFuzzerTestOneInput strcpy uninit data raw.length s).outcome = .aborted) ∧
    (∀ v s1, LLVMFuzzerTestOneInput strcpy uninit data raw.length s = .val v s1 → v = 0) ∧
    (∀ s1, LLVMFuzzerTestOneInput strcpy uninit data raw.length s = .abort s1 →
      raw ≠ [] ∧ ∃ dest src pre,
        s1.trace = s.trace ++ [.malloc (raw.length + 1) src, .memcpy src data raw.length,
          .malloc (raw.length + 1) dest, .strcpy dest src pre, .strcmp dest src, .abort]) := by
  by_cases hne : raw = []
  · subst hne
    refine ⟨fun _ => Or.inl rfl, ?_, ?_⟩
    · intro v s1 h
      have h' : (Res.val 0 s : Res Int) = .val v s1 := h
      cases h'
      rfl
    · intro s1 h
      have h' : (Res.val 0 s : Res Int) = .abort s1 := h
      cases h'
  · have hrun := run_nonempty strcpy uninit s data raw hne hin
    refine ⟨?_, ?_, ?_⟩
    · intro hk
      obtain ⟨hsrc, d2, hdest, hlen⟩ := hk _ _ _ (memAtCall_pre uninit s.mem raw) _ _
        (memAtCall_src uninit s.mem raw) (memAtCall_dest uninit s.mem raw)
      obtain ⟨hpass, hfail⟩ := run_after_copy strcpy uninit s data raw hne hin d2 hsrc hdest
        (by simpa using hlen)
      by_cases heq : d2 = raw.map replaceNul ++ [0]
      · obtain ⟨s1, h1⟩ := hpass heq
        left; rw [h1]; rfl
      · obtain ⟨s1, h1⟩ := hfail heq
        right; rw [h1]; rfl
    · intro v s1 h
      rw [hrun] at h
      exact (checkAndRelease_val _ _ _ _ _ h).1
    · intro s1 h
      rw [hrun] at h
      have hs1 := checkAndRelease_abort _ _ _ _ h
      subst hs1
      exact ⟨hne, s.mem.blocks.length + 1, s.mem.blocks.length, memAtCall uninit s.mem raw,
        by simp⟩

/-- Witness of C15 as amended: the input `41 00 42` under a primitive that
copies one byte only, which aborts. -/
theorem outcome_space_witness :
    HoldsInput exState.mem 0 [0x41, 0x00, 0x42] ∧ KeepsBuffers (truncStrcpy 1) ∧
    (LLVMFuzzerTestOneInput (truncStrcpy 1) exUninit 0 3 exState).outcome = .aborted ∧
    ((LLVMFuzzerTestOneInput (truncStrcpy 1) exUninit 0 3 exState).outcome = .returned 0 ∨
      (LLVMFuzzerTestOneInput (truncStrcpy 1) exUninit 0 3 exState).outcome = .aborted) ∧
    (∀ v s1, LLVMFuzzerTestOneInput (truncStrcpy 1) exUninit 0 3 exState = .val v s1 → v = 0) ∧
    (∀ s1, LLVMFuzzerTestOneInput (truncStrcpy 1) exUninit 0 3 exState = .abort s1 →
      ([0x41, 0x00, 0x42] : List Byte) ≠ [] ∧ ∃ dest src pre,
        s1.trace = exState.trace ++ [.malloc (3 + 1) src, .memcpy src 0 3,
          .malloc (3 + 1) dest, .strcpy dest src pre, .strcmp dest src, .abort]) :=
  ⟨by decide, truncStrcpy_one_keeps, by decide,
    (outcome_space (truncStrcpy 1) exUninit exState 0 [0x41, 0x00, 0x42] (by decide)).1
      truncStrcpy_one_keeps,
    (outcome_space (truncStrcpy 1) exUninit exState 0 [0x41, 0x00, 0x42] (by decide)).2⟩

end StrcpyFuzz
